import Mathlib

/-!
# Verification of the ActivitySim discrete-choice simulation core

This file gives a shallow embedding of `activitysim/core/simulate.py`
(expression evaluation → utilities → probabilities → choices, with chunked
execution) together with the parts of its data model needed to state and
settle the specification claims.

Modelling conventions:

* pandas `Series`/`DataFrame` objects are label-aligned, so a series is
  embedded as an association list keyed by the row key (entity id) or by a
  column name; a chooser-level matrix is a list of rows `Key × (ColName → ℝ)`.
* machine floats are embedded as real numbers `ℝ`; the special values that
  the nested-logit code relies on (`log 0 = -inf`, `exp(-inf) = 0`) are
  captured by routing the intermediate value through `EReal` (`⊥` plays the
  role of `-inf`), see `elog`/`eexp` below.
* code that can raise is embedded with `Except`; an `assert` failure is the
  `SimError.assertionError` value.
* functions of this repository that are only *called* by
  `simulate.py` but whose sources are not part of the package under
  verification (`logit.py`, `chunk.py`, `pipeline.py`) are modelled from the
  specification; each such definition carries a doc comment starting with
  `Modelled from the spec:`.
-/

namespace ActivitySim

/-- Entity key: rows of the chooser table are uniquely identified by it. -/
abbrev Key := Nat

/-- Column / expression / alternative / nest names. -/
abbrev ColName := String

/-- One row of the chooser (entity) table: a key plus its feature columns. -/
structure Chooser where
  key : Key
  data : ColName → ℝ

/-- External semantics of spec expressions (`df.eval` for plain expressions,
Python `eval` for `@`-expressions): an expression, evaluated on one row, may
fail (unknown identifier, domain error) or produce a value.  Scalar results
of `@`-expressions are broadcast per row, so a per-row value is the general
shape. -/
abbrev ExprSem := ColName → Chooser → Option ℝ

/-- A model spec: ordered expression index, alternative columns, and the
coefficient of each expression for each alternative (numeric as read from the
CSV; coerced to float by `compute_utilities`). -/
structure Spec where
  exprs : List ColName
  alts : List ColName
  coeff : ColName → ColName → ℚ

/-- Association-list lookup (first match wins), the embedding of label-based
indexing of pandas series. -/
def alookup {κ : Type} {α : Type} [DecidableEq κ] (c : κ) : List (κ × α) → Option α
  | [] => none
  | (n, v) :: rest => if n = c then some v else alookup c rest

/-- Errors the embedded engine can signal. -/
inductive SimError where
  | assertionError
  | exprFailed (e : ColName)
  | notAligned
  | badDraw (k : Key)
  deriving DecidableEq

/-- The expression-value matrix: the row index of the chooser table plus one
column (a key-aligned series) per evaluated expression. -/
structure EV where
  index : List Key
  cols : List (ColName × List (Key × ℝ))

/-- Evaluation of a single expression over the whole table (the body of the
`try` in `eval_variables`): fails iff the expression fails to evaluate. -/
def colEval (sem : ExprSem) (rows : List Chooser) (e : ColName) :
    Option (List (Key × ℝ)) :=
  rows.mapM (fun r => (sem e r).map (fun v => (r.key, v)))

/-- The expression loop of `eval_variables`: evaluate each expression in
order, appending `(expr, values)` pairs; the first failing expression aborts
the whole call (the source logs the offending expression string and
re-raises), so no partial matrix is ever produced. -/
def eval_variables_items (sem : ExprSem) (rows : List Chooser) :
    List ColName → Except ColName (List (ColName × List (Key × ℝ)))
  | [] => .ok []
  | e :: rest =>
    match colEval sem rows e with
    | none => .error e
    | some col => (eval_variables_items sem rows rest).map (fun l => (e, col) :: l)

/-- Embedding of `eval_variables`: evaluates the spec expressions against the
chooser table, producing the expression-value matrix (values are already real
numbers, so the `astype(target_type)` coercion is the identity here). -/
def eval_variables (sem : ExprSem) (exprs : List ColName) (rows : List Chooser) :
    Except ColName EV :=
  (eval_variables_items sem rows exprs).map (fun cols => ⟨rows.map Chooser.key, cols⟩)

/-- Embedding of `compute_utilities`: the matrix product
`expression_values.dot(spec)` of pandas, which aligns the columns of
`expression_values` with the index of `spec` *by label* (and raises
`not aligned` when the label sets differ): entry `(k, a)` is the sum over
expression columns of (value of that column at key `k`) times the spec
coefficient of that expression for alternative `a`.  The spec coefficients
are coerced to floating point first (`spec = spec.astype(np.float64)`). -/
noncomputable def compute_utilities (ev : EV) (spec : Spec) :
    Option (List (Key × (ColName → ℝ))) :=
  if (ev.cols.map Prod.fst).Perm spec.exprs then
    some (ev.index.map (fun k =>
      (k, fun a =>
        (ev.cols.map (fun ec =>
          (alookup k ec.2).getD 0 * ((spec.coeff ec.1 a : ℚ) : ℝ))).sum)))
  else none

/-- Maximum of a row of utilities (used for the numerically-stable shift). -/
def rowMax : List ℝ → ℝ
  | [] => 0
  | x :: xs => xs.foldl max x

/-- Modelled from the spec: `logit.utils_to_probs` (module `logit.py` is not
part of the sources under verification) in flat MNL mode — per row, subtract
the row maximum utility, exponentiate, and normalise by the row sum, so each
row of the result is a probability distribution over the alternatives. -/
noncomputable def utils_to_probs (alts : List ColName)
    (utilities : List (Key × (ColName → ℝ))) : List (Key × (ColName → ℝ)) :=
  utilities.map (fun ku =>
    (ku.1, fun a =>
      Real.exp (ku.2 a - rowMax (alts.map ku.2)) /
        ((alts.map (fun b => Real.exp (ku.2 b - rowMax (alts.map ku.2)))).sum)))

/-- Modelled from the spec: the inverse-CDF selection inside
`logit.make_choices` — accumulate probabilities in the fixed column order and
select the first alternative whose cumulative probability exceeds the draw
`r`; `none` when the row's probabilities do not sum above the draw value. -/
noncomputable def chooseIdx (r : ℝ) (i : Nat) : List ℝ → Option Nat
  | [] => none
  | p :: rest => if r < p then some i else chooseIdx (r - p) (i + 1) rest

/-- Modelled from the spec: `logit.make_choices` — one draw per entity from a
reproducible random stream keyed by the entity key (`pipeline.py`'s random
channel is keyed by entity identity, not by chunk position), inverse-CDF
selection per row, fatal error (`badDraw`) when a row's probabilities do not
reach the draw value.  The returned pairs carry both the chosen alternative
position and the draw used (the source returns the two aligned series
`choices, rands`). -/
noncomputable def make_choices (alts : List ColName)
    (probs : List (Key × (ColName → ℝ))) (rng : Key → ℝ) :
    Except SimError (List (Key × Nat × ℝ)) :=
  probs.mapM (fun kp =>
    match chooseIdx (rng kp.1) 0 (alts.map kp.2) with
    | some j => .ok (kp.1, j, rng kp.1)
    | none => .error (.badDraw kp.1))

/-- Embedding of `eval_mnl` up to and including the
`choices, rands = logit.make_choices(probs, ...)` line: the per-entity
choices together with the draws used for them. -/
noncomputable def eval_mnl_full (sem : ExprSem) (choosers : List Chooser)
    (spec : Spec) (rng : Key → ℝ) : Except SimError (List (Key × Nat × ℝ)) :=
  match eval_variables sem spec.exprs choosers with
  | .error e => .error (.exprFailed e)
  | .ok ev =>
    match compute_utilities ev spec with
    | none => .error .notAligned
    | some utilities => make_choices spec.alts (utils_to_probs spec.alts utilities) rng

/-- Embedding of `eval_mnl`: the function's `return choices` returns only the
choices series (entity key ↦ position of the chosen alternative); the draws
are used for tracing output only and are not part of the returned value. -/
noncomputable def eval_mnl (sem : ExprSem) (choosers : List Chooser)
    (spec : Spec) (rng : Key → ℝ) : Except SimError (List (Key × Nat)) :=
  (eval_mnl_full sem choosers spec rng).map (List.map (fun t => (t.1, t.2.1)))

/-! ## The nest tree

`NestSpec` from the model yaml: a tree with named nodes carrying a scaling
coefficient; leaves correspond to alternative columns of the spec.  The
traversal helpers of `logit.py` (`each_nest`, `count_nests`, the `ancestors`
and `product_of_coefficients` attributes of a nest) are not among the sources
under verification, so the traversal data they provide is modelled from the
spec (post-order iteration; a leaf's coefficient product is the product of
its ancestor coefficients from leaf to root, excluding the root). -/

mutual
inductive Nest where
  | leaf (name : ColName)
  | node (name : ColName) (coefficient : ℝ) (children : NestList)
inductive NestList where
  | nil
  | cons (head : Nest) (tail : NestList)
end

def Nest.name : Nest → ColName
  | .leaf n => n
  | .node n _ _ => n

/-- Names of the direct children of a nest node (`nest.alternatives`). -/
def childNames : NestList → List ColName
  | .nil => []
  | .cons h t => h.name :: childNames t

mutual
/-- All names of a subtree in post-order (children before parent), the order
in which `each_nest(nest_spec, post_order=True)` yields them. -/
def postNames : Nest → List ColName
  | .leaf n => [n]
  | .node n _ kids => postNamesList kids ++ [n]
def postNamesList : NestList → List ColName
  | .nil => []
  | .cons h t => postNames h ++ postNamesList t
end

mutual
/-- Modelled from the spec: `logit.count_nests` — the node count of the tree
(used only by the chunk-size estimate). -/
def count_nests : Nest → Nat
  | .leaf _ => 1
  | .node _ _ kids => count_nestsList kids + 1
def count_nestsList : NestList → Nat
  | .nil => 0
  | .cons h t => count_nests h + count_nestsList t
end

mutual
/-- Leaves of a subtree paired with the product of the nest coefficients
accumulated so far (`p`) extended through this subtree. -/
def leafProds (p : ℝ) : Nest → List (ColName × ℝ)
  | .leaf n => [(n, p)]
  | .node _ c kids => leafProdsList (p * c) kids
def leafProdsList (p : ℝ) : NestList → List (ColName × ℝ)
  | .nil => []
  | .cons h t => leafProds p h ++ leafProdsList p t
end

/-- Modelled from the spec: each leaf paired with its
`product_of_coefficients`, the product of the scaling coefficients of its
ancestors from leaf to root, the root's own coefficient excluded. -/
def leafAncestorProds : Nest → List (ColName × ℝ)
  | .leaf n => [(n, 1)]
  | .node _ _ kids => leafProdsList 1 kids

mutual
/-- The internal nodes of a subtree (post-order): name, coefficient, and the
list of direct child names. -/
def nodeInfos : Nest → List (ColName × ℝ × List ColName)
  | .leaf _ => []
  | .node n c kids => nodeInfosList kids ++ [(n, c, childNames kids)]
def nodeInfosList : NestList → List (ColName × ℝ × List ColName)
  | .nil => []
  | .cons h t => nodeInfos h ++ nodeInfosList t
end

mutual
/-- Leaves of a subtree paired with their ancestor-name chain: `pfx` holds
the names of the enclosing nests accumulated so far; the chain ends with the
leaf's own name. -/
def leafChains (pfx : List ColName) : Nest → List (ColName × List ColName)
  | .leaf n => [(n, pfx ++ [n])]
  | .node n _ kids => leafChainsList (pfx ++ [n]) kids
def leafChainsList (pfx : List ColName) : NestList → List (ColName × List ColName)
  | .nil => []
  | .cons h t => leafChains pfx h ++ leafChainsList pfx t
end

/-- Modelled from the spec: each leaf paired with `nest.ancestors[1:]` — the
chain of names from just below the root down to the leaf itself (the root is
skipped: no nested-probability column is computed for it). -/
def leafChainsRoot : Nest → List (ColName × List ColName)
  | .leaf n => [(n, [])]
  | .node _ _ kids => leafChainsList [] kids

/-- Leaf (alternative) names of the tree, in traversal order. -/
def leafNames (t : Nest) : List ColName :=
  (leafChainsRoot t).map Prod.fst

/-! ## Float semantics of the nested exponentiated-utility computation

The source computes `nest.coefficient * np.log(sum)` and then `np.exp` of it,
explicitly allowing the divide-by-zero in the logarithm: `np.log 0 = -inf`,
a positive coefficient times `-inf` is `-inf`, and `np.exp (-inf) = 0`.  We
capture this by letting the pre-exponentiation value live in `EReal`, where
`⊥` plays the role of `-inf`. -/

/-- `np.log` on the nonnegative reals that occur here: `log 0 = -inf`. -/
noncomputable def elog (x : ℝ) : EReal :=
  if x = 0 then ⊥ else ((Real.log x : ℝ) : EReal)

/-- `np.exp` on the extended reals produced by `elog` and by `-inf` raw
utilities: `exp (-inf) = 0`.  (The `⊤` branch is unreachable for the inputs
arising in this development: `elog` of a real is never `⊤` and raw utilities
are never `+inf`.) -/
noncomputable def eexp (x : EReal) : ℝ :=
  if x = ⊥ then 0 else if x = ⊤ then 0 else Real.exp x.toReal

/-- Float division of a (possibly `-inf`) raw utility by a positive
coefficient product: `x / p`, with `-inf / p = -inf`. -/
noncomputable def edivp (x : EReal) (p : ℝ) : EReal :=
  x * ((p⁻¹ : ℝ) : EReal)

mutual
/-- One row of the post-order loop of `compute_nested_exp_utilities`, below
the root: `p` is the product of the ancestor coefficients accumulated so far.
A leaf's column is `exp (raw_utility / product_of_coefficients)`; a node's
column is `exp (coefficient * log (sum of its children's columns))`, the
children's columns being already present in the table thanks to post-order.

`raw` takes values in `EReal` because a float raw utility can be `-inf`
(equivalently, its exponentiated utility can underflow to exactly zero). -/
noncomputable def rowNEU (raw : ColName → EReal) (p : ℝ) : Nest → List (ColName × ℝ)
  | .leaf n => [(n, eexp (edivp (raw n) p))]
  | .node n c kids =>
    let tbl := rowNEUList raw (p * c) kids
    tbl ++ [(n, eexp ((c : EReal) *
      elog (((childNames kids).map (fun m => (alookup m tbl).getD 0)).sum)))]
noncomputable def rowNEUList (raw : ColName → EReal) (p : ℝ) :
    NestList → List (ColName × ℝ)
  | .nil => []
  | .cons h t => rowNEU raw p h ++ rowNEUList raw p t
end

/-- One row of `compute_nested_exp_utilities`, started at the root: the
root's own coefficient is excluded from the leaves' coefficient products, and
the root's column is computed like any other nest node's. -/
noncomputable def compute_nested_exp_utilities_row (raw : ColName → EReal) :
    Nest → List (ColName × ℝ)
  | .leaf n => [(n, eexp (edivp (raw n) 1))]
  | .node n c kids =>
    let tbl := rowNEUList raw 1 kids
    tbl ++ [(n, eexp ((c : EReal) *
      elog (((childNames kids).map (fun m => (alookup m tbl).getD 0)).sum)))]

/-- Embedding of `compute_nested_exp_utilities`: same index as the raw
utilities, one column per leaf and per nest node; every column is elementwise
in the rows, so the table is the per-row computation applied to each row
(finite float raw utilities embed into `EReal`). -/
noncomputable def compute_nested_exp_utilities
    (raw_utilities : List (Key × (ColName → ℝ))) (nest_spec : Nest) :
    List (Key × (ColName → ℝ)) :=
  raw_utilities.map (fun ku =>
    (ku.1, fun n =>
      (alookup n (compute_nested_exp_utilities_row
        (fun c => ((ku.2 c : ℝ) : EReal)) nest_spec)).getD 0))

/-- One row of `compute_nested_probabilities`: for every nest node, the local
(within-nest) probabilities of its children — each child's exponentiated
utility divided by the sum over the siblings.  The zero-sum degenerate case
follows the allow-zero policy, modelled from the spec: a nest all of whose
children have zero exponentiated utility gets probability 0 for every child
(`logit.utils_to_probs(..., exponentiated=True, allow_zero_probs=True)` is
not among the sources under verification). -/
noncomputable def rowNestedProbs (vals : ColName → ℝ) (t : Nest) :
    List (ColName × ℝ) :=
  ((nodeInfos t).map (fun ni =>
    ni.2.2.map (fun ch =>
      (ch, if (ni.2.2.map vals).sum = 0 then (0 : ℝ)
           else vals ch / (ni.2.2.map vals).sum)))).flatten

/-- Embedding of `compute_nested_probabilities`: one column per non-root
element of the tree (each node contributes columns for its children), rows
aligned with the exponentiated-utility table. -/
noncomputable def compute_nested_probabilities
    (nested_exp_utilities : List (Key × (ColName → ℝ))) (nest_spec : Nest) :
    List (Key × (ColName → ℝ)) :=
  nested_exp_utilities.map (fun ku =>
    (ku.1, fun n => (alookup n (rowNestedProbs ku.2 nest_spec)).getD 0))

/-- One row of `compute_base_probabilities`: each leaf's flattened (global)
probability is the product of the nested-probability columns of its ancestor
chain `nest.ancestors[1:]` (root excluded, leaf included). -/
noncomputable def rowBaseProbs (np : ColName → ℝ) (t : Nest) :
    List (ColName × ℝ) :=
  (leafChainsRoot t).map (fun lc => (lc.1, (lc.2.map np).prod))

/-- Embedding of `compute_base_probabilities`: one column per leaf, rows
aligned with the nested-probability table. -/
noncomputable def compute_base_probabilities
    (nested_probabilities : List (Key × (ColName → ℝ))) (nests : Nest) :
    List (Key × (ColName → ℝ)) :=
  nested_probabilities.map (fun ku =>
    (ku.1, fun n => (alookup n (rowBaseProbs ku.2 nests)).getD 0))

/-- The tail of `eval_nl` after the base probabilities are computed
(lines 500–517 of `simulate.py`): flag every row whose leaf-probability sum
differs from 1 by more than `BAD_PROB_THRESHOLD = 0.001` (a logged
diagnostic, `report_bad_choices`), then hand the *full* base-probability
table — flagged rows included — to `logit.make_choices`. -/
noncomputable def eval_nl_from_base (leaves : List ColName)
    (base_probabilities : List (Key × (ColName → ℝ))) (rng : Key → ℝ) :
    List Key × Except SimError (List (Key × Nat × ℝ)) :=
  ((base_probabilities.filter
      (fun kp => decide ((1 : ℝ) / 1000 < |(leaves.map kp.2).sum - 1|))).map Prod.fst,
   make_choices leaves base_probabilities rng)

/-- Embedding of `eval_nl` up to and including the
`choices, rands = logit.make_choices(base_probabilities, ...)` line. -/
noncomputable def eval_nl_full (sem : ExprSem) (choosers : List Chooser)
    (spec : Spec) (nest_spec : Nest) (rng : Key → ℝ) :
    Except SimError (List (Key × Nat × ℝ)) :=
  match eval_variables sem spec.exprs choosers with
  | .error e => .error (.exprFailed e)
  | .ok ev =>
    match compute_utilities ev spec with
    | none => .error .notAligned
    | some raw_utilities =>
      let nested_exp_utilities := compute_nested_exp_utilities raw_utilities nest_spec
      let nested_probabilities :=
        compute_nested_probabilities nested_exp_utilities nest_spec
      let base_probabilities :=
        compute_base_probabilities nested_probabilities nest_spec
      (eval_nl_from_base (leafNames nest_spec) base_probabilities rng).2

/-- Embedding of `eval_nl`: like `eval_mnl`, only the choices series is
returned; the draws are used for tracing output only. -/
noncomputable def eval_nl (sem : ExprSem) (choosers : List Chooser)
    (spec : Spec) (nest_spec : Nest) (rng : Key → ℝ) :
    Except SimError (List (Key × Nat)) :=
  (eval_nl_full sem choosers spec nest_spec rng).map
    (List.map (fun t => (t.1, t.2.1)))

/-! ## Chunked execution -/

/-- Embedding of `_simple_simulate`: dispatch on the presence of a nest spec
(MNL when `none`, NL otherwise).  The skims step only rebinds the lookup
providers to the current chunk and is absorbed into `sem`. -/
noncomputable def _simple_simulate (sem : ExprSem) (choosers : List Chooser)
    (spec : Spec) (nest_spec : Option Nest) (rng : Key → ℝ) :
    Except SimError (List (Key × Nat)) :=
  match nest_spec with
  | none => eval_mnl sem choosers spec rng
  | some nest => eval_nl sem choosers spec nest rng

/-- `_simple_simulate` kept at the `(choices, rands)` stage: the per-entity
choices together with the draws used for them. -/
noncomputable def _simple_simulate_full (sem : ExprSem) (choosers : List Chooser)
    (spec : Spec) (nest_spec : Option Nest) (rng : Key → ℝ) :
    Except SimError (List (Key × Nat × ℝ)) :=
  match nest_spec with
  | none => eval_mnl_full sem choosers spec rng
  | some nest => eval_nl_full sem choosers spec nest rng

/-- Modelled from the spec: `chunk.chunked_choosers` — partition the chooser
rows into consecutive chunks of `rpc` rows (the final chunk may be smaller);
each row belongs to exactly one chunk and chunk order follows row order.
(`rpc = 0` cannot occur — `rows_per_chunk` returns at least 1 — and is mapped
to a single chunk.) -/
def chunked_choosers {α : Type} : List α → Nat → List (List α)
  | [], _ => []
  | x :: xs, rpc =>
    if rpc = 0 then [x :: xs]
    else (x :: xs).take rpc :: chunked_choosers ((x :: xs).drop rpc) rpc
termination_by rows _ => rows.length
decreasing_by
  simp only [List.length_drop, List.length_cons]
  omega

/-- Modelled from the spec: `chunk.rows_per_chunk` — the largest row count
whose estimated working set (`row_size` floating-point cells per row) fits
the `chunk_size` budget, at least 1 and at most the population size. -/
def rows_per_chunk (chunk_size row_size num_choosers : Nat) : Nat :=
  min num_choosers (max 1 (chunk_size / row_size))

/-- Embedding of `simple_simulate_rpc`: with `chunk_size = 0` (no chunking)
the whole population is one chunk; otherwise the per-row cost is the chooser
row width plus the extra columns of the intermediate matrices (expression
values per spec row, utilities and probabilities per alternative, and for
nested logit two columns per nest less one, as `nested_probabilities` lacks
the root).  `chooser_row_size` stands for `len(choosers.columns)`. -/
def simple_simulate_rpc (chunk_size chooser_row_size num_choosers : Nat)
    (spec : Spec) (nest_spec : Option Nest) : Nat :=
  if chunk_size = 0 then num_choosers
  else
    let extra_columns :=
      match nest_spec with
      | none => spec.exprs.length + 2 * spec.alts.length
      | some t => spec.exprs.length + 2 * spec.alts.length + 2 * count_nests t - 1
    rows_per_chunk chunk_size (chooser_row_size + extra_columns) num_choosers

/-- The chunk loop of `simple_simulate`: run `_simple_simulate` on each chunk
in order, concatenating the per-chunk choices (with a single chunk the
result is that chunk's choices, which coincides with the concatenation). -/
noncomputable def simple_simulate_loop (sem : ExprSem) (choosers : List Chooser)
    (spec : Spec) (nest_spec : Option Nest) (rng : Key → ℝ) (rpc : Nat) :
    Except SimError (List (Key × Nat)) :=
  ((chunked_choosers choosers rpc).mapM
    (fun chooser_chunk => _simple_simulate sem chooser_chunk spec nest_spec rng)).map
    List.flatten

/-- The chunk loop kept at the `(choices, rands)` stage. -/
noncomputable def simple_simulate_full_loop (sem : ExprSem) (choosers : List Chooser)
    (spec : Spec) (nest_spec : Option Nest) (rng : Key → ℝ) (rpc : Nat) :
    Except SimError (List (Key × Nat × ℝ)) :=
  ((chunked_choosers choosers rpc).mapM
    (fun chooser_chunk => _simple_simulate_full sem chooser_chunk spec nest_spec rng)).map
    List.flatten

/-- Embedding of `simple_simulate`: `assert len(choosers) > 0` first, then
the chunk loop with the computed rows-per-chunk. -/
noncomputable def simple_simulate (sem : ExprSem) (choosers : List Chooser)
    (spec : Spec) (nest_spec : Option Nest) (rng : Key → ℝ)
    (chunk_size chooser_row_size : Nat) : Except SimError (List (Key × Nat)) :=
  if 0 < choosers.length then
    simple_simulate_loop sem choosers spec nest_spec rng
      (simple_simulate_rpc chunk_size chooser_row_size choosers.length spec nest_spec)
  else .error .assertionError

/-- Embedding of the choices-to-names mapping of `_mode_choice_simulate`
(`abm/models/mode_choice.py`): run `simple_simulate` and map each chosen
position to the alternative name via `dict(zip(range(len(alts)), alts))`. -/
noncomputable def _mode_choice_simulate (sem : ExprSem) (choosers : List Chooser)
    (spec : Spec) (nest_spec : Option Nest) (rng : Key → ℝ)
    (chunk_size chooser_row_size : Nat) : Except SimError (List (Key × ColName)) :=
  (simple_simulate sem choosers spec nest_spec rng chunk_size chooser_row_size).map
    (List.map (fun kc => (kc.1, spec.alts.getD kc.2 "")))

/-! ## Logsum variants -/

/-- Embedding of `eval_mnl_logsums`: per row, the log of the sum over the
alternatives of the exponentiated utilities. -/
noncomputable def eval_mnl_logsums (sem : ExprSem) (choosers : List Chooser)
    (spec : Spec) : Except SimError (List (Key × ℝ)) :=
  match eval_variables sem spec.exprs choosers with
  | .error e => .error (.exprFailed e)
  | .ok ev =>
    match compute_utilities ev spec with
    | none => .error .notAligned
    | some utilities =>
      .ok (utilities.map (fun ku =>
        (ku.1, Real.log ((spec.alts.map (fun a => Real.exp (ku.2 a))).sum))))

/-- Embedding of `eval_nl_logsums`: per row, the log of the root column of
the nested exponentiated utilities (the source reads the column named
`root`). -/
noncomputable def eval_nl_logsums (sem : ExprSem) (choosers : List Chooser)
    (spec : Spec) (nest_spec : Nest) : Except SimError (List (Key × ℝ)) :=
  match eval_variables sem spec.exprs choosers with
  | .error e => .error (.exprFailed e)
  | .ok ev =>
    match compute_utilities ev spec with
    | none => .error .notAligned
    | some raw_utilities =>
      .ok ((compute_nested_exp_utilities raw_utilities nest_spec).map
        (fun ku => (ku.1, Real.log (ku.2 "root"))))

/-- Embedding of `_simple_simulate_logsums`. -/
noncomputable def _simple_simulate_logsums (sem : ExprSem) (choosers : List Chooser)
    (spec : Spec) (nest_spec : Option Nest) : Except SimError (List (Key × ℝ)) :=
  match nest_spec with
  | none => eval_mnl_logsums sem choosers spec
  | some nest => eval_nl_logsums sem choosers spec nest

/-- Embedding of `simple_simulate_logsums_rpc`. -/
def simple_simulate_logsums_rpc (chunk_size chooser_row_size num_choosers : Nat)
    (spec : Spec) (nest_spec : Option Nest) : Nat :=
  if chunk_size = 0 then num_choosers
  else
    let extra_columns :=
      match nest_spec with
      | none => spec.exprs.length + spec.alts.length
      | some t => spec.exprs.length + spec.alts.length + count_nests t
    rows_per_chunk chunk_size (chooser_row_size + extra_columns) num_choosers

/-- Embedding of `simple_simulate_logsums`: `assert len(choosers) > 0`
first, then the chunk loop. -/
noncomputable def simple_simulate_logsums (sem : ExprSem) (choosers : List Chooser)
    (spec : Spec) (nest_spec : Option Nest)
    (chunk_size chooser_row_size : Nat) : Except SimError (List (Key × ℝ)) :=
  if 0 < choosers.length then
    ((chunked_choosers choosers
        (simple_simulate_logsums_rpc chunk_size chooser_row_size choosers.length
          spec nest_spec)).mapM
      (fun chooser_chunk => _simple_simulate_logsums sem chooser_chunk spec nest_spec)).map
      List.flatten
  else .error .assertionError

/-! ## Heap model for the `locals_d` handling of `eval_variables`

Python dictionaries are mutable objects reached through references; to state
the frame property of lines 112–115 of `simulate.py` we use a small store of
dictionaries addressed by allocation index. -/

/-- A Python dict: ordered bindings, first match wins on lookup. -/
abbrev Dict (V : Type) := List (ColName × V)

abbrev Ref := Nat

/-- The store: dictionaries addressed by allocation index. -/
abbrev Store (V : Type) := List (Dict V)

/-- Dereference (a dangling reference yields the empty dict, unreachable for
valid references). -/
def getRef {V : Type} (σ : Store V) (r : Ref) : Dict V := σ.getD r []

/-- In-place mutation of the dictionary at `r`. -/
def setRef {V : Type} (σ : Store V) (r : Ref) (d : Dict V) : Store V := σ.set r d

/-- Allocate a fresh dictionary, returning the extended store and the fresh
reference. -/
def allocRef {V : Type} (σ : Store V) (d : Dict V) : Store V × Ref :=
  (σ ++ [d], σ.length)

/-- `d.update(upd)`: the bindings of `upd` take precedence. -/
def dictUpdate {V : Type} (d upd : Dict V) : Dict V := upd ++ d

/-- Embedding of the `locals_d` handling of `eval_variables`
(lines 112–115 of `simulate.py`):
`locals_d = locals_d.copy() if locals_d is not None else {}` followed by
`locals_d.update(locals())`.  Given the caller's dictionary reference (or
`none`), the function allocates the dictionary it will evaluate
`@`-expressions in — a *copy* of the caller's — and then updates that copy in
place with its own bindings; the new store and the function's reference are
returned. -/
def eval_variables_locals {V : Type} (σ : Store V) (caller : Option Ref)
    (internals : Dict V) : Store V × Ref :=
  let copied := match caller with
    | none => ([] : Dict V)
    | some rc => getRef σ rc
  let alloc := allocRef σ copied
  (setRef alloc.1 alloc.2 (dictUpdate (getRef alloc.1 alloc.2) internals), alloc.2)

/-! ## Theorems -/

/-- C9: for every call to `eval_variables` with a non-`None` `locals_d`
environment dictionary, the caller's dictionary is unchanged after the call:
the function copies it before installing its own bindings (the copy is a
fresh allocation, distinct from every live reference, and the in-place
`update` hits only the copy), so evaluating expressions never mutates the
caller's environment. -/
theorem eval_variables_preserves_caller_locals {V : Type} (σ : Store V) (rc : Ref)
    (internals : Dict V) (h : rc < σ.length) :
    getRef (eval_variables_locals σ (some rc) internals).1 rc = getRef σ rc ∧
    (eval_variables_locals σ (some rc) internals).2 ≠ rc := by
  unfold eval_variables_locals allocRef setRef getRef dictUpdate
  refine ⟨?_, by simpa using Nat.ne_of_gt h⟩
  show (((σ ++ [_]).set σ.length _).getD rc []) = σ.getD rc []
  rw [List.getD_eq_getElem?_getD, List.getD_eq_getElem?_getD,
    List.getElem?_set_ne (Nat.ne_of_gt h), List.getElem?_append]
  simp [h]

theorem eval_variables_preserves_caller_locals_witness :
    (0 : Ref) < ([[("x", 1)]] : Store Nat).length ∧
    (getRef (eval_variables_locals ([[("x", 1)]] : Store Nat) (some 0) [("y", 2)]).1 0
        = [("x", 1)] ∧
      (eval_variables_locals ([[("x", 1)]] : Store Nat) (some 0) [("y", 2)]).2 ≠ 0) :=
  ⟨by decide,
   eval_variables_preserves_caller_locals ([[("x", 1)]] : Store Nat) 0 [("y", 2)]
     (by decide)⟩

/-- C10: `simple_simulate` and `simple_simulate_logsums` require a non-empty
chooser population: called with an entity table of zero rows, each fails its
`assert len(choosers) > 0` before any chunking or evaluation takes place
(the result is the assertion failure, not an empty — or any other —
result). -/
theorem simple_simulate_empty_choosers_assert (sem : ExprSem) (spec : Spec)
    (nest_spec : Option Nest) (rng : Key → ℝ) (chunk_size chooser_row_size : Nat) :
    simple_simulate sem [] spec nest_spec rng chunk_size chooser_row_size
        = .error .assertionError ∧
    simple_simulate_logsums sem [] spec nest_spec chunk_size chooser_row_size
        = .error .assertionError := by
  constructor <;> rfl

/-- C7: if any expression in the list fails to evaluate, `eval_variables`
raises a fatal error identifying the first offending expression string;
evaluation of the remaining expressions is abandoned and no (partial)
expression-value matrix is returned to the caller. -/
theorem eval_variables_fatal_on_failure (sem : ExprSem) (exprs : List ColName)
    (rows : List Chooser) (e : ColName)
    (hfirst : exprs.find? (fun x => (colEval sem rows x).isNone) = some e) :
    eval_variables sem exprs rows = .error e ∧
    ∀ ev, eval_variables sem exprs rows ≠ .ok ev := by
  have main : eval_variables_items sem rows exprs = .error e := by
    induction exprs with
    | nil => simp at hfirst
    | cons x rest ih =>
      by_cases hx : (colEval sem rows x).isNone
      · simp only [List.find?_cons, hx] at hfirst
        obtain rfl : x = e := by simpa using hfirst
        rcases hcol : colEval sem rows x with _ | col
        · simp [eval_variables_items, hcol]
        · rw [hcol] at hx; simp at hx
      · simp only [Bool.not_eq_true] at hx
        simp only [List.find?_cons, hx] at hfirst
        rcases hcol : colEval sem rows x with _ | col
        · rw [hcol] at hx; simp at hx
        · simp [eval_variables_items, hcol, ih hfirst, Except.map]
  refine ⟨?_, ?_⟩
  · simp [eval_variables, main, Except.map]
  · intro ev hok
    simp [eval_variables, main, Except.map] at hok

theorem eval_variables_fatal_on_failure_witness :
    (["good", "bad", "worse"].find?
        (fun x => (colEval (fun e _ => if e = "good" then some 1 else none)
          [⟨0, fun _ => 0⟩] x).isNone) = some "bad") ∧
    (eval_variables (fun e _ => if e = "good" then some 1 else none)
        ["good", "bad", "worse"] [⟨0, fun _ => 0⟩] = .error "bad" ∧
      ∀ ev, eval_variables (fun e _ => if e = "good" then some 1 else none)
        ["good", "bad", "worse"] [⟨0, fun _ => 0⟩] ≠ .ok ev) :=
  ⟨by rfl,
   eval_variables_fatal_on_failure (fun e _ => if e = "good" then some 1 else none)
     ["good", "bad", "worse"] [⟨0, fun _ => 0⟩] "bad" (by rfl)⟩

/-- C4: `compute_utilities` is the matrix product of the expression values
with the spec's coefficient columns: when the expression-value column names
and the spec's expression index agree (as label sets — otherwise pandas
raises "not aligned"), the result has one row per chooser (same index) and,
for each row key and alternative, the entry is the sum over expression
columns of the column's value at that key times the spec coefficient of that
expression for that alternative, the coefficient being coerced from its CSV
numeric type to floating point (`↑(spec.coeff e a) : ℝ`) before the
multiplication.  The alignment is by expression identity, not position: an
expression-value matrix with the same columns in any other order yields the
same result. -/
theorem compute_utilities_correct (ev : EV) (spec : Spec)
    (halign : (ev.cols.map Prod.fst).Perm spec.exprs) :
    ∃ utilities, compute_utilities ev spec = some utilities ∧
      utilities.map Prod.fst = ev.index ∧
      (∀ ku ∈ utilities, ∀ a,
        ku.2 a = (ev.cols.map (fun ec =>
          (alookup ku.1 ec.2).getD 0 * ((spec.coeff ec.1 a : ℚ) : ℝ))).sum) ∧
      (∀ ev2 : EV, ev2.index = ev.index → ev2.cols.Perm ev.cols →
        compute_utilities ev2 spec = compute_utilities ev spec) := by
  refine ⟨_, by rw [compute_utilities, if_pos halign], by simp [Function.comp_def], ?_, ?_⟩
  · intro ku hku a
    simp only [List.mem_map] at hku
    obtain ⟨k, _, rfl⟩ := hku
    rfl
  · intro ev2 hidx hperm
    have halign2 : (ev2.cols.map Prod.fst).Perm spec.exprs :=
      (hperm.map Prod.fst).trans halign
    rw [compute_utilities, compute_utilities, if_pos halign, if_pos halign2, hidx]
    refine congrArg _ (List.map_congr_left (fun k _ => ?_))
    refine congrArg _ (funext (fun a => ?_))
    exact (hperm.map
      (fun ec => (alookup k ec.2).getD 0 * ((spec.coeff ec.1 a : ℚ) : ℝ))).sum_eq

theorem compute_utilities_correct_witness :
    ((([("e1", [((0 : Key), (5 : ℝ))])] :
          List (ColName × List (Key × ℝ))).map Prod.fst).Perm ["e1"]) ∧
    ∃ utilities,
      compute_utilities ⟨[0], [("e1", [(0, 5)])]⟩
          ⟨["e1"], ["a"], fun _ _ => 2⟩ = some utilities ∧
      utilities.map Prod.fst = [0] ∧
      (∀ ku ∈ utilities, ∀ a,
        ku.2 a = (([("e1", [((0 : Key), (5 : ℝ))])] :
            List (ColName × List (Key × ℝ))).map
          (fun ec => (alookup ku.1 ec.2).getD 0 * (((2 : ℚ)) : ℝ))).sum) ∧
      (∀ ev2 : EV, ev2.index = [0] →
        ev2.cols.Perm [("e1", [(0, 5)])] →
        compute_utilities ev2 ⟨["e1"], ["a"], fun _ _ => 2⟩ =
          compute_utilities ⟨[0], [("e1", [(0, 5)])]⟩
            ⟨["e1"], ["a"], fun _ _ => 2⟩) :=
  ⟨by decide,
   compute_utilities_correct ⟨[0], [("e1", [(0, 5)])]⟩
     ⟨["e1"], ["a"], fun _ _ => 2⟩ (by decide)⟩

/-! ### Association-list lookup lemmas -/

theorem alookup_eq_none {κ α : Type} [DecidableEq κ] (c : κ) (l : List (κ × α)) :
    alookup c l = none ↔ c ∉ l.map Prod.fst := by
  induction l with
  | nil => simp [alookup]
  | cons x rest ih =>
    obtain ⟨n, v⟩ := x
    by_cases hx : n = c
    · simp [alookup, hx]
    · simp [alookup, hx, ih, Ne.symm hx]

theorem alookup_append_some {κ α : Type} [DecidableEq κ] {c : κ}
    {l1 l2 : List (κ × α)} {v : α} (h : alookup c l1 = some v) :
    alookup c (l1 ++ l2) = some v := by
  induction l1 with
  | nil => simp [alookup] at h
  | cons x rest ih =>
    obtain ⟨n, w⟩ := x
    by_cases hx : n = c
    · simp only [alookup, hx, if_pos rfl] at h ⊢
      exact h
    · simp only [alookup, hx, if_neg hx] at h ⊢
      exact ih h

theorem alookup_append_none {κ α : Type} [DecidableEq κ] {c : κ}
    {l1 : List (κ × α)} (l2 : List (κ × α)) (h : alookup c l1 = none) :
    alookup c (l1 ++ l2) = alookup c l2 := by
  induction l1 with
  | nil => simp
  | cons x rest ih =>
    obtain ⟨n, w⟩ := x
    by_cases hx : n = c
    · simp [alookup, hx] at h
    · simp only [alookup, hx, if_neg hx] at h ⊢
      exact ih h

theorem alookup_of_mem_fst {κ α : Type} [DecidableEq κ] {c : κ}
    {l : List (κ × α)} (h : c ∈ l.map Prod.fst) : ∃ v, alookup c l = some v := by
  cases ha : alookup c l with
  | none => exact absurd ((alookup_eq_none c l).mp ha) (by simpa using h)
  | some v => exact ⟨v, rfl⟩

/-! ### Structural facts about the nest traversals -/

theorem name_mem_postNames (t : Nest) : t.name ∈ postNames t := by
  cases t with
  | leaf n => simp [postNames, Nest.name]
  | node n c kids => simp [postNames, Nest.name]

mutual
theorem leafProds_fst_mem : ∀ (t : Nest) (p : ℝ) (lp : ColName × ℝ),
    lp ∈ leafProds p t → lp.1 ∈ postNames t
  | .leaf n, p, lp, h => by
    simp only [leafProds, List.mem_singleton] at h
    simp [h, postNames]
  | .node n c kids, p, lp, h => by
    simp only [leafProds] at h
    simp only [postNames, List.mem_append]
    exact Or.inl (leafProdsList_fst_mem kids (p * c) lp h)
theorem leafProdsList_fst_mem : ∀ (l : NestList) (p : ℝ) (lp : ColName × ℝ),
    lp ∈ leafProdsList p l → lp.1 ∈ postNamesList l
  | .cons h t, p, lp, hm => by
    simp only [leafProdsList, List.mem_append] at hm
    simp only [postNamesList, List.mem_append]
    exact hm.imp (leafProds_fst_mem h p lp) (leafProdsList_fst_mem t p lp)
end

mutual
theorem nodeInfos_mem_names : ∀ (t : Nest) (ni : ColName × ℝ × List ColName),
    ni ∈ nodeInfos t → ni.1 ∈ postNames t ∧ ∀ m ∈ ni.2.2, m ∈ postNames t
  | .node n c kids, ni, h => by
    simp only [nodeInfos, List.mem_append, List.mem_singleton] at h
    rcases h with h | rfl
    · have := nodeInfosList_mem_names kids ni h
      exact ⟨by simp [postNames, this.1],
        fun m hm => by simp [postNames, (this.2 m hm)]⟩
    · refine ⟨by simp [postNames], fun m hm => ?_⟩
      simp only [postNames, List.mem_append]
      exact Or.inl (childNames_mem_postNamesList kids m hm)
theorem nodeInfosList_mem_names : ∀ (l : NestList) (ni : ColName × ℝ × List ColName),
    ni ∈ nodeInfosList l → ni.1 ∈ postNamesList l ∧ ∀ m ∈ ni.2.2, m ∈ postNamesList l
  | .cons h t, ni, hm => by
    simp only [nodeInfosList, List.mem_append] at hm
    rcases hm with hm | hm
    · have := nodeInfos_mem_names h ni hm
      exact ⟨by simp [postNamesList, this.1],
        fun m hmm => by simp [postNamesList, this.2 m hmm]⟩
    · have := nodeInfosList_mem_names t ni hm
      exact ⟨by simp [postNamesList, this.1],
        fun m hmm => by simp [postNamesList, this.2 m hmm]⟩
theorem childNames_mem_postNamesList : ∀ (l : NestList) (m : ColName),
    m ∈ childNames l → m ∈ postNamesList l
  | .cons h t, m, hm => by
    simp only [childNames, List.mem_cons] at hm
    simp only [postNamesList, List.mem_append]
    rcases hm with rfl | hm
    · exact Or.inl (name_mem_postNames h)
    · exact Or.inr (childNames_mem_postNamesList t m hm)
end

mutual
theorem rowNEU_names (raw : ColName → EReal) (p : ℝ) :
    ∀ t : Nest, (rowNEU raw p t).map Prod.fst = postNames t
  | .leaf n => by simp [rowNEU, postNames]
  | .node n c kids => by
    simp [rowNEU, postNames, rowNEUList_names raw (p * c) kids]
theorem rowNEUList_names (raw : ColName → EReal) (p : ℝ) :
    ∀ l : NestList, (rowNEUList raw p l).map Prod.fst = postNamesList l
  | .nil => by simp [rowNEUList, postNamesList]
  | .cons h t => by
    simp [rowNEUList, postNamesList, rowNEU_names raw p h, rowNEUList_names raw p t]
end

mutual
/-- Denotation of a subtree's own exponentiated-utility column (`p` = product
of the enclosing nests' coefficients): used to characterise the table built
by `rowNEU`. -/
noncomputable def nestVal (raw : ColName → EReal) (p : ℝ) : Nest → ℝ
  | .leaf n => eexp (edivp (raw n) p)
  | .node _ c kids => eexp ((c : EReal) * elog (nestValSum raw (p * c) kids))
noncomputable def nestValSum (raw : ColName → EReal) (p : ℝ) : NestList → ℝ
  | .nil => 0
  | .cons h t => nestVal raw p h + nestValSum raw p t
end

mutual
/-- Master characterisation of the post-order exponentiated-utility table
below the root: under name-uniqueness, looking up a subtree's root name gives
its denotation, every leaf's column is `exp (raw / coefficient product)`,
and every internal node's column is
`exp (coefficient * log (sum of its children's columns))`. -/
theorem rowNEU_char (raw : ColName → EReal) (p : ℝ) :
    ∀ t : Nest, (postNames t).Nodup →
      alookup t.name (rowNEU raw p t) = some (nestVal raw p t) ∧
      (∀ lp ∈ leafProds p t,
        alookup lp.1 (rowNEU raw p t) = some (eexp (edivp (raw lp.1) lp.2))) ∧
      (∀ ni ∈ nodeInfos t,
        alookup ni.1 (rowNEU raw p t) = some (eexp ((ni.2.1 : EReal) * elog
          ((ni.2.2.map (fun m => (alookup m (rowNEU raw p t)).getD 0)).sum))))
  | .leaf n, hnd => by
    refine ⟨by simp [rowNEU, Nest.name, alookup, nestVal], ?_, ?_⟩
    · intro lp hlp
      simp only [leafProds, List.mem_singleton] at hlp
      subst hlp
      simp [rowNEU, alookup]
    · intro ni hni
      simp [nodeInfos] at hni
  | .node n c kids, hnd => by
    simp only [postNames] at hnd
    rw [List.nodup_append] at hnd
    obtain ⟨hndk, -, hdisj⟩ := hnd
    have hn_not : n ∉ postNamesList kids := fun hmem => hdisj hmem (by simp)
    have hq := rowNEUList_char raw (p * c) kids hndk
    have htbl_none : alookup n (rowNEUList raw (p * c) kids) = none :=
      (alookup_eq_none _ _).mpr (by rwa [rowNEUList_names])
    have hself :
        alookup n (rowNEU raw p (.node n c kids)) = some (eexp ((c : EReal) * elog
          (((childNames kids).map
            (fun m => (alookup m (rowNEUList raw (p * c) kids)).getD 0)).sum))) := by
      rw [rowNEU, alookup_append_none _ htbl_none]
      simp [alookup]
    -- lookups inside the children's table survive the append of the node's entry
    have hkeep : ∀ m ∈ postNamesList kids,
        alookup m (rowNEU raw p (.node n c kids))
          = alookup m (rowNEUList raw (p * c) kids) := by
      intro m hm
      obtain ⟨v, hv⟩ := alookup_of_mem_fst (l := rowNEUList raw (p * c) kids)
        (by rwa [rowNEUList_names])
      rw [rowNEU, alookup_append_some hv, hv]
    refine ⟨?_, ?_, ?_⟩
    · rw [Nest.name, hself, hq.1]
      simp [nestVal]
    · intro lp hlp
      simp only [leafProds] at hlp
      have hmem := leafProdsList_fst_mem kids (p * c) lp hlp
      rw [hkeep lp.1 hmem]
      exact hq.2.1 lp hlp
    · intro ni hni
      simp only [nodeInfos, List.mem_append, List.mem_singleton] at hni
      rcases hni with hni | rfl
      · have hmemni := (nodeInfosList_mem_names kids ni hni).1
        have hsub := (nodeInfosList_mem_names kids ni hni).2
        have hmaps : List.map
            (fun m => (alookup m (rowNEU raw p (Nest.node n c kids))).getD 0) ni.2.2
            = List.map
              (fun m => (alookup m (rowNEUList raw (p * c) kids)).getD 0) ni.2.2 :=
          List.map_congr_left (fun m hm => by rw [hkeep m (hsub m hm)])
        rw [hkeep ni.1 hmemni, hq.2.2 ni hni, hmaps]
      · have hmaps : List.map
            (fun m => (alookup m (rowNEU raw p (Nest.node n c kids))).getD 0)
              (childNames kids)
            = List.map
              (fun m => (alookup m (rowNEUList raw (p * c) kids)).getD 0)
              (childNames kids) :=
          List.map_congr_left (fun m hm =>
            by rw [hkeep m (childNames_mem_postNamesList kids m hm)])
        rw [hself, hmaps]
theorem rowNEUList_char (raw : ColName → EReal) (p : ℝ) :
    ∀ l : NestList, (postNamesList l).Nodup →
      ((childNames l).map
        (fun m => (alookup m (rowNEUList raw p l)).getD 0)).sum = nestValSum raw p l ∧
      (∀ lp ∈ leafProdsList p l,
        alookup lp.1 (rowNEUList raw p l) = some (eexp (edivp (raw lp.1) lp.2))) ∧
      (∀ ni ∈ nodeInfosList l,
        alookup ni.1 (rowNEUList raw p l) = some (eexp ((ni.2.1 : EReal) * elog
          ((ni.2.2.map (fun m => (alookup m (rowNEUList raw p l)).getD 0)).sum))))
  | .nil, hnd => by
    refine ⟨by simp [childNames, rowNEUList, nestValSum], ?_, ?_⟩
    · intro lp hlp
      simp [leafProdsList] at hlp
    · intro ni hni
      simp [nodeInfosList] at hni
  | .cons h t, hnd => by
    simp only [postNamesList] at hnd
    rw [List.nodup_append] at hnd
    obtain ⟨hndh, hndt, hdisj⟩ := hnd
    have hph := rowNEU_char raw p h hndh
    have hpt := rowNEUList_char raw p t hndt
    -- transfer of lookups from either part to the concatenation
    have hkeepL : ∀ m ∈ postNames h,
        alookup m (rowNEUList raw p (.cons h t)) = alookup m (rowNEU raw p h) := by
      intro m hm
      obtain ⟨v, hv⟩ := alookup_of_mem_fst (l := rowNEU raw p h)
        (by rwa [rowNEU_names])
      rw [rowNEUList, alookup_append_some hv, hv]
    have hkeepR : ∀ m ∈ postNamesList t,
        alookup m (rowNEUList raw p (.cons h t)) = alookup m (rowNEUList raw p t) := by
      intro m hm
      have hnone : alookup m (rowNEU raw p h) = none :=
        (alookup_eq_none _ _).mpr (by rw [rowNEU_names]; exact fun hc => hdisj hc hm)
      rw [rowNEUList, alookup_append_none _ hnone]
    refine ⟨?_, ?_, ?_⟩
    · simp only [childNames, List.map_cons, List.sum_cons, nestValSum]
      rw [hkeepL h.name (name_mem_postNames h), hph.1]
      simp only [Option.getD_some]
      congr 1
      rw [← hpt.1]
      exact congrArg _ (List.map_congr_left (fun m hm =>
        by rw [hkeepR m (childNames_mem_postNamesList t m hm)]))
    · intro lp hlp
      simp only [leafProdsList, List.mem_append] at hlp
      rcases hlp with hlp | hlp
      · rw [hkeepL lp.1 (leafProds_fst_mem h p lp hlp)]
        exact hph.2.1 lp hlp
      · rw [hkeepR lp.1 (leafProdsList_fst_mem t p lp hlp)]
        exact hpt.2.1 lp hlp
    · intro ni hni
      simp only [nodeInfosList, List.mem_append] at hni
      rcases hni with hni | hni
      · have hmem := (nodeInfos_mem_names h ni hni).1
        have hsub := (nodeInfos_mem_names h ni hni).2
        have hmaps : List.map
            (fun m => (alookup m (rowNEUList raw p (NestList.cons h t))).getD 0) ni.2.2
            = List.map (fun m => (alookup m (rowNEU raw p h)).getD 0) ni.2.2 :=
          List.map_congr_left (fun m hm => by rw [hkeepL m (hsub m hm)])
        rw [hkeepL ni.1 hmem, hph.2.2 ni hni, hmaps]
      · have hmem := (nodeInfosList_mem_names t ni hni).1
        have hsub := (nodeInfosList_mem_names t ni hni).2
        have hmaps : List.map
            (fun m => (alookup m (rowNEUList raw p (NestList.cons h t))).getD 0) ni.2.2
            = List.map (fun m => (alookup m (rowNEUList raw p t)).getD 0) ni.2.2 :=
          List.map_congr_left (fun m hm => by rw [hkeepR m (hsub m hm)])
        rw [hkeepR ni.1 hmem, hpt.2.2 ni hni, hmaps]
end

/-- C2: for every raw-utility row and nest tree (with the NestSpec invariant
that names are unique), `compute_nested_exp_utilities` assigns each leaf the
exponentiated utility `exp (raw_utility / product of its ancestor nest
coefficients from leaf to root, excluding the root)` and assigns each
internal node, its children having been computed first thanks to the
post-order traversal, `exp (node_coefficient * log (sum of its children's
exponentiated utilities))` — stated on the per-row table
`compute_nested_exp_utilities_row`, of which the column-level
`compute_nested_exp_utilities` is the row-wise application. -/
theorem compute_nested_exp_utilities_correct (raw : ColName → EReal) (t : Nest)
    (hnd : (postNames t).Nodup) :
    (∀ lp ∈ leafAncestorProds t,
      alookup lp.1 (compute_nested_exp_utilities_row raw t)
        = some (eexp (edivp (raw lp.1) lp.2))) ∧
    (∀ ni ∈ nodeInfos t,
      alookup ni.1 (compute_nested_exp_utilities_row raw t)
        = some (eexp ((ni.2.1 : EReal) * elog
          ((ni.2.2.map (fun m =>
            (alookup m (compute_nested_exp_utilities_row raw t)).getD 0)).sum)))) := by
  cases t with
  | leaf n =>
    refine ⟨?_, ?_⟩
    · intro lp hlp
      simp only [leafAncestorProds, List.mem_singleton] at hlp
      subst hlp
      simp [compute_nested_exp_utilities_row, alookup]
    · intro ni hni
      simp [nodeInfos] at hni
  | node n c kids =>
    simp only [postNames] at hnd
    rw [List.nodup_append] at hnd
    obtain ⟨hndk, -, hdisj⟩ := hnd
    have hq := rowNEUList_char raw 1 kids hndk
    have htbl_none : alookup n (rowNEUList raw 1 kids) = none :=
      (alookup_eq_none _ _).mpr
        (by rw [rowNEUList_names]; exact fun hm => hdisj hm (by simp))
    have hself :
        alookup n (compute_nested_exp_utilities_row raw (.node n c kids))
          = some (eexp ((c : EReal) * elog
            (((childNames kids).map
              (fun m => (alookup m (rowNEUList raw 1 kids)).getD 0)).sum))) := by
      rw [compute_nested_exp_utilities_row, alookup_append_none _ htbl_none]
      simp [alookup]
    have hkeep : ∀ m ∈ postNamesList kids,
        alookup m (compute_nested_exp_utilities_row raw (.node n c kids))
          = alookup m (rowNEUList raw 1 kids) := by
      intro m hm
      obtain ⟨v, hv⟩ := alookup_of_mem_fst (l := rowNEUList raw 1 kids)
        (by rwa [rowNEUList_names])
      rw [compute_nested_exp_utilities_row, alookup_append_some hv, hv]
    refine ⟨?_, ?_⟩
    · intro lp hlp
      simp only [leafAncestorProds] at hlp
      rw [hkeep lp.1 (leafProdsList_fst_mem kids 1 lp hlp)]
      exact hq.2.1 lp hlp
    · intro ni hni
      simp only [nodeInfos, List.mem_append, List.mem_singleton] at hni
      rcases hni with hni | rfl
      · have hmemni := (nodeInfosList_mem_names kids ni hni).1
        have hsub := (nodeInfosList_mem_names kids ni hni).2
        have hmaps : List.map
            (fun m => (alookup m
              (compute_nested_exp_utilities_row raw (.node n c kids))).getD 0) ni.2.2
            = List.map (fun m => (alookup m (rowNEUList raw 1 kids)).getD 0) ni.2.2 :=
          List.map_congr_left (fun m hm => by rw [hkeep m (hsub m hm)])
        rw [hkeep ni.1 hmemni, hq.2.2 ni hni, hmaps]
      · have hmaps : List.map
            (fun m => (alookup m
              (compute_nested_exp_utilities_row raw (.node n c kids))).getD 0)
              (childNames kids)
            = List.map (fun m => (alookup m (rowNEUList raw 1 kids)).getD 0)
              (childNames kids) :=
          List.map_congr_left (fun m hm =>
            by rw [hkeep m (childNames_mem_postNamesList kids m hm)])
        rw [hself, hmaps]

theorem compute_nested_exp_utilities_correct_witness :
    (postNames (.node "root" 1 (.cons
        (.node "nest1" (7 / 10) (.cons (.leaf "a") (.cons (.leaf "b") .nil)))
        (.cons (.leaf "c") .nil)))).Nodup ∧
    ((∀ lp ∈ leafAncestorProds (.node "root" 1 (.cons
        (.node "nest1" (7 / 10) (.cons (.leaf "a") (.cons (.leaf "b") .nil)))
        (.cons (.leaf "c") .nil))),
      alookup lp.1 (compute_nested_exp_utilities_row (fun _ => (0 : EReal))
          (.node "root" 1 (.cons
            (.node "nest1" (7 / 10) (.cons (.leaf "a") (.cons (.leaf "b") .nil)))
            (.cons (.leaf "c") .nil))))
        = some (eexp (edivp ((fun _ => (0 : EReal)) lp.1) lp.2))) ∧
    (∀ ni ∈ nodeInfos (.node "root" 1 (.cons
        (.node "nest1" (7 / 10) (.cons (.leaf "a") (.cons (.leaf "b") .nil)))
        (.cons (.leaf "c") .nil))),
      alookup ni.1 (compute_nested_exp_utilities_row (fun _ => (0 : EReal))
          (.node "root" 1 (.cons
            (.node "nest1" (7 / 10) (.cons (.leaf "a") (.cons (.leaf "b") .nil)))
            (.cons (.leaf "c") .nil))))
        = some (eexp ((ni.2.1 : EReal) * elog
          ((ni.2.2.map (fun m =>
            (alookup m (compute_nested_exp_utilities_row (fun _ => (0 : EReal))
              (.node "root" 1 (.cons
                (.node "nest1" (7 / 10) (.cons (.leaf "a") (.cons (.leaf "b") .nil)))
                (.cons (.leaf "c") .nil))))).getD 0)).sum))))) :=
  ⟨by decide,
   compute_nested_exp_utilities_correct (fun _ => (0 : EReal))
     (.node "root" 1 (.cons
       (.node "nest1" (7 / 10) (.cons (.leaf "a") (.cons (.leaf "b") .nil)))
       (.cons (.leaf "c") .nil))) (by decide)⟩

/-- C5: an internal nest node all of whose children have exponentiated
utility zero does not make `compute_nested_exp_utilities` raise: the
logarithm of the zero child sum is the non-finite `-inf` (`⊥`), a positive
nest coefficient times it is still `-inf`, and the final exponentiation
collapses it to exactly 0, so the node's own exponentiated-utility column is
0 (the source suppresses only the `RuntimeWarning`, computing through). -/
theorem nested_exp_utilities_degenerate_nest (raw : ColName → EReal) (p : ℝ)
    (n : ColName) (c : ℝ) (kids : NestList) (hc : 0 < c)
    (hn : n ∉ postNamesList kids)
    (hz : ∀ m ∈ childNames kids,
      (alookup m (rowNEUList raw (p * c) kids)).getD 0 = 0) :
    alookup n (rowNEU raw p (.node n c kids)) = some 0 := by
  have htbl_none : alookup n (rowNEUList raw (p * c) kids) = none :=
    (alookup_eq_none _ _).mpr (by rwa [rowNEUList_names])
  have hsum : (((childNames kids)).map
      (fun m => (alookup m (rowNEUList raw (p * c) kids)).getD 0)).sum = 0 := by
    rw [List.map_congr_left hz]
    simp
  rw [rowNEU, alookup_append_none _ htbl_none]
  simp only [alookup, if_pos rfl, Option.some_inj]
  rw [hsum, elog, if_pos rfl, EReal.coe_mul_bot_of_pos hc]
  simp [eexp]

theorem nested_exp_utilities_degenerate_nest_witness :
    ((0 : ℝ) < 1 ∧
      "r" ∉ postNamesList (.cons (.leaf "a") (.cons (.leaf "b") .nil)) ∧
      ∀ m ∈ childNames (.cons (.leaf "a") (.cons (.leaf "b") .nil)),
        (alookup m (rowNEUList (fun _ => (⊥ : EReal)) (1 * 1)
          (.cons (.leaf "a") (.cons (.leaf "b") .nil)))).getD 0 = 0) ∧
    alookup "r" (rowNEU (fun _ => (⊥ : EReal)) 1
        (.node "r" 1 (.cons (.leaf "a") (.cons (.leaf "b") .nil)))) = some 0 := by
  have hz : ∀ m ∈ childNames (.cons (.leaf "a") (.cons (.leaf "b") .nil)),
      (alookup m (rowNEUList (fun _ => (⊥ : EReal)) (1 * 1)
        (.cons (.leaf "a") (.cons (.leaf "b") .nil)))).getD 0 = 0 := by
    simp [childNames, rowNEUList, rowNEU, alookup, edivp, eexp, Nest.name]
  exact ⟨⟨zero_lt_one, by decide, hz⟩,
    nested_exp_utilities_degenerate_nest (fun _ => (⊥ : EReal)) 1 "r" 1
      (.cons (.leaf "a") (.cons (.leaf "b") .nil)) zero_lt_one (by decide) hz⟩

/-! ### Base-probability flattening -/

theorem alookup_map_of_nodup {κ α β : Type} [DecidableEq κ]
    (xs : List (κ × α)) (g : κ × α → β) (hnd : (xs.map Prod.fst).Nodup)
    (x : κ × α) (hx : x ∈ xs) :
    alookup x.1 (xs.map (fun y => (y.1, g y))) = some (g x) := by
  induction xs with
  | nil => simp at hx
  | cons y ys ih =>
    simp only [List.map_cons, List.nodup_cons] at hnd
    rcases List.mem_cons.mp hx with rfl | hx
    · simp [alookup]
    · have hne : y.1 ≠ x.1 := fun he =>
        hnd.1 (he ▸ List.mem_map.mpr ⟨x, hx, rfl⟩)
      simp only [List.map_cons, alookup, if_neg hne]
      exact ih hnd.2 hx

mutual
theorem leafChains_fst_sublist : ∀ (t : Nest) (pfx : List ColName),
    ((leafChains pfx t).map Prod.fst).Sublist (postNames t)
  | .leaf n, pfx => by simp [leafChains, postNames]
  | .node n c kids, pfx => by
    simp only [leafChains, postNames]
    exact (leafChainsList_fst_sublist kids (pfx ++ [n])).trans
      (List.sublist_append_left _ _)
theorem leafChainsList_fst_sublist : ∀ (l : NestList) (pfx : List ColName),
    ((leafChainsList pfx l).map Prod.fst).Sublist (postNamesList l)
  | .nil, pfx => by simp [leafChainsList, postNamesList]
  | .cons h t, pfx => by
    simp only [leafChainsList, postNamesList, List.map_append]
    exact (leafChains_fst_sublist h pfx).append (leafChainsList_fst_sublist t pfx)
end

theorem leafChainsRoot_fst_sublist (t : Nest) :
    ((leafChainsRoot t).map Prod.fst).Sublist (postNames t) := by
  cases t with
  | leaf n => simp [leafChainsRoot, postNames]
  | node n c kids =>
    simp only [leafChainsRoot, postNames]
    exact (leafChainsList_fst_sublist kids []).trans (List.sublist_append_left _ _)

mutual
/-- Telescoping of the flattened leaf probabilities: when every nest's
children's local probabilities sum to 1, the chain products over a subtree's
leaves collapse to the prefix product times the subtree's own local
probability. -/
theorem leafChains_prod_sum (np : ColName → ℝ) :
    ∀ (t : Nest) (pfx : List ColName),
      (∀ ni ∈ nodeInfos t, ((ni.2.2.map np).sum = 1)) →
      ((leafChains pfx t).map (fun lc => (lc.2.map np).prod)).sum
        = (pfx.map np).prod * np t.name
  | .leaf n, pfx, _ => by
    simp [leafChains, Nest.name]
  | .node n c kids, pfx, hsum => by
    have hkids : ∀ ni ∈ nodeInfosList kids, ((ni.2.2.map np).sum = 1) :=
      fun ni hni => hsum ni (by simp [nodeInfos, hni])
    have hroot : ((childNames kids).map np).sum = 1 := by
      have := hsum (n, c, childNames kids) (by simp [nodeInfos])
      simpa using this
    simp only [leafChains, Nest.name]
    rw [leafChainsList_prod_sum np kids (pfx ++ [n]) hkids, hroot]
    simp [mul_comm]
theorem leafChainsList_prod_sum (np : ColName → ℝ) :
    ∀ (l : NestList) (pfx : List ColName),
      (∀ ni ∈ nodeInfosList l, ((ni.2.2.map np).sum = 1)) →
      ((leafChainsList pfx l).map (fun lc => (lc.2.map np).prod)).sum
        = (pfx.map np).prod * ((childNames l).map np).sum
  | .nil, pfx, _ => by simp [leafChainsList, childNames]
  | .cons h t, pfx, hsum => by
    have hh : ∀ ni ∈ nodeInfos h, ((ni.2.2.map np).sum = 1) :=
      fun ni hni => hsum ni (by simp [nodeInfosList, hni])
    have ht : ∀ ni ∈ nodeInfosList t, ((ni.2.2.map np).sum = 1) :=
      fun ni hni => hsum ni (by simp [nodeInfosList, hni])
    simp only [leafChainsList, childNames, List.map_append, List.sum_append,
      List.map_cons, List.sum_cons]
    rw [leafChains_prod_sum np h pfx hh, leafChainsList_prod_sum np t pfx ht]
    ring
end

/-- C3 (amended): for every nested-probability row and (wellformed) nest
tree, `compute_base_probabilities` sets each leaf's flattened probability to
the product of that leaf's local (within-nest) probability at every ancestor
level, the root's own local probability excluded; and — amended — the
flattened leaf probabilities sum to 1 for each row *provided* the children's
local probabilities sum to 1 within every nest (as `utils_to_probs` ensures
whenever no nest is fully degenerate; the unconditional sum-to-one half of
the claim fails on the all-zero degenerate input, see the counterexample). -/
theorem compute_base_probabilities_correct (np : ColName → ℝ) (t : Nest)
    (hnd : (postNames t).Nodup) :
    (∀ lc ∈ leafChainsRoot t,
      alookup lc.1 (rowBaseProbs np t) = some ((lc.2.map np).prod)) ∧
    ((∀ ni ∈ nodeInfos t, ((ni.2.2.map np).sum = 1)) →
      ((rowBaseProbs np t).map Prod.snd).sum = 1) := by
  constructor
  · intro lc hlc
    have hndl : ((leafChainsRoot t).map Prod.fst).Nodup :=
      (leafChainsRoot_fst_sublist t).nodup hnd
    exact alookup_map_of_nodup _ _ hndl lc hlc
  · intro hsum
    cases t with
    | leaf n => simp [rowBaseProbs, leafChainsRoot]
    | node n c kids =>
      have hkids : ∀ ni ∈ nodeInfosList kids, ((ni.2.2.map np).sum = 1) :=
        fun ni hni => hsum ni (by simp [nodeInfos, hni])
      have hroot : ((childNames kids).map np).sum = 1 := by
        have := hsum (n, c, childNames kids) (by simp [nodeInfos])
        simpa using this
      have : ((rowBaseProbs np (.node n c kids)).map Prod.snd)
          = (leafChainsList [] kids).map (fun lc => (lc.2.map np).prod) := by
        simp [rowBaseProbs, leafChainsRoot, List.map_map, Function.comp_def]
      rw [this, leafChainsList_prod_sum np kids [] hkids, hroot]
      simp

theorem compute_base_probabilities_correct_witness :
    (postNames (.node "root" 1 (.cons (.leaf "a") (.cons (.leaf "b") .nil)))).Nodup ∧
    ((∀ lc ∈ leafChainsRoot
          (.node "root" 1 (.cons (.leaf "a") (.cons (.leaf "b") .nil))),
        alookup lc.1 (rowBaseProbs (fun m => if m = "a" then 1 else 0)
            (.node "root" 1 (.cons (.leaf "a") (.cons (.leaf "b") .nil))))
          = some ((lc.2.map (fun m => if m = "a" then 1 else 0)).prod)) ∧
      ((∀ ni ∈ nodeInfos (.node "root" 1 (.cons (.leaf "a") (.cons (.leaf "b") .nil))),
          ((ni.2.2.map (fun m => if m = "a" then (1 : ℝ) else 0)).sum = 1)) →
        ((rowBaseProbs (fun m => if m = "a" then 1 else 0)
            (.node "root" 1 (.cons (.leaf "a") (.cons (.leaf "b") .nil)))).map
          Prod.snd).sum = 1)) ∧
    (∀ ni ∈ nodeInfos (.node "root" 1 (.cons (.leaf "a") (.cons (.leaf "b") .nil))),
      ((ni.2.2.map (fun m => if m = "a" then (1 : ℝ) else 0)).sum = 1)) :=
  ⟨by decide,
   compute_base_probabilities_correct (fun m => if m = "a" then 1 else 0)
     (.node "root" 1 (.cons (.leaf "a") (.cons (.leaf "b") .nil))) (by decide),
   by simp [nodeInfos, nodeInfosList, childNames, Nest.name]⟩

/-- C3 counterexample: on the all-zero nested-probability row (exactly what
`compute_nested_probabilities` produces for a fully degenerate tree under the
allow-zero policy) the flattened leaf probabilities of a two-leaf tree sum to
0, not 1: the claim's unconditional "sum to 1 across all leaves for each
row" is false as stated. -/
theorem compute_base_probabilities_sum_counterexample :
    ((rowBaseProbs (fun _ => 0)
        (.node "root" 1 (.cons (.leaf "a") (.cons (.leaf "b") .nil)))).map
      Prod.snd).sum ≠ 1 := by
  simp [rowBaseProbs, leafChainsRoot, leafChainsList, leafChains]

/-- C6: in `eval_nl`, after flattening, a row is flagged as a "bad
probabilities" diagnostic exactly when its leaf-probability sum differs from
1.0 by more than the fixed tolerance `BAD_PROB_THRESHOLD = 0.001`
(`1/1000`), and this flagging is non-fatal: whatever was flagged, evaluation
continues and the complete base-probability table — the flagged rows
included — is the table handed to the choice sampler `logit.make_choices`
(stated on `eval_nl_from_base`, the embedded tail of `eval_nl`). -/
theorem eval_nl_bad_prob_diagnostic (leaves : List ColName)
    (base : List (Key × (ColName → ℝ))) (rng : Key → ℝ) :
    (∀ k, k ∈ (eval_nl_from_base leaves base rng).1 ↔
      ∃ kp ∈ base, kp.1 = k ∧ (1 : ℝ) / 1000 < |(leaves.map kp.2).sum - 1|) ∧
    (eval_nl_from_base leaves base rng).2 = make_choices leaves base rng := by
  refine ⟨fun k => ?_, rfl⟩
  simp only [eval_nl_from_base, List.mem_map, List.mem_filter,
    decide_eq_true_eq]
  constructor
  · rintro ⟨kp, ⟨hmem, hbad⟩, rfl⟩
    exact ⟨kp, hmem, rfl, hbad⟩
  · rintro ⟨kp, hmem, rfl, hbad⟩
    exact ⟨kp, ⟨hmem, hbad⟩, rfl⟩

/-- Concrete single-alternative MNL run used to exhibit what `eval_mnl`
delivers: one chooser with key 0, one expression with value 1 and
coefficient 1, so the lone alternative has probability 1 and is chosen for
every draw `r < 1`, with the draw retained in the pre-return pair stage. -/
theorem eval_mnl_full_concrete_run (r : ℝ) (hr : r < 1) :
    eval_mnl_full (fun _ _ => some 1) [⟨0, fun _ => 0⟩]
      ⟨["e"], ["car"], fun _ _ => 1⟩ (fun _ => r) = .ok [(0, 0, r)] := by
  have hev : eval_variables (fun _ _ => some (1 : ℝ)) ["e"] [⟨0, fun _ => 0⟩]
      = .ok ⟨[0], [("e", [(0, 1)])]⟩ := rfl
  rw [eval_mnl_full]
  rw [hev]
  simp only [compute_utilities]
  rw [if_pos (show ((([("e", [((0 : Key), (1 : ℝ))])] :
    List (ColName × List (Key × ℝ))).map Prod.fst).Perm ["e"]) by simp)]
  simp only [utils_to_probs, make_choices, List.map_cons, List.map_nil,
    List.mapM_cons, List.mapM_nil, chooseIdx, rowMax, List.foldl_nil,
    alookup, if_pos rfl, Option.getD_some, Rat.cast_one, mul_one,
    List.sum_cons, List.sum_nil, sub_self, Real.exp_zero, add_zero, div_one,
    if_pos hr]
  rfl

/-- C8 counterexample: the value `eval_mnl` delivers to its caller does not
carry the random draw: two runs on the same inputs whose random streams give
*different* draw values deliver *identical* results, so the draw cannot be
part of the delivered result (it exists only at the internal
`(choices, rands)` stage and in trace output). -/
theorem eval_mnl_omits_draw_counterexample :
    eval_mnl (fun _ _ => some 1) [⟨0, fun _ => 0⟩]
        ⟨["e"], ["car"], fun _ _ => 1⟩ (fun _ => 0)
      = eval_mnl (fun _ _ => some 1) [⟨0, fun _ => 0⟩]
        ⟨["e"], ["car"], fun _ _ => 1⟩ (fun _ => 1 / 2) ∧
    ((fun _ => (0 : ℝ)) 0) ≠ ((fun _ => (1 / 2 : ℝ)) 0) := by
  constructor
  · rw [eval_mnl, eval_mnl,
      eval_mnl_full_concrete_run 0 (by norm_num),
      eval_mnl_full_concrete_run (1 / 2) (by norm_num)]
    simp [Except.map]
  · norm_num

/-- C8 (amended): the result delivered to the caller is the mapping from
entity key to the chosen alternative — `eval_mnl` returns only the choices
of the internal `(choices, rands)` pair (the draw values are used for trace
output and are not part of the returned value), and `_mode_choice_simulate`
maps each chosen position to the alternative's name.  Stated for a
successful run: the delivered values are exactly the per-entity
`(key, position)` pairs, resp. `(key, alternative name)` pairs, of the
internal stage. -/
theorem choices_delivered_without_draws (sem : ExprSem) (choosers : List Chooser)
    (spec : Spec) (nest_spec : Option Nest) (rng : Key → ℝ)
    (chunk_size chooser_row_size : Nat)
    (triples : List (Key × Nat × ℝ)) (out : List (Key × Nat))
    (hfull : eval_mnl_full sem choosers spec rng = .ok triples)
    (hsim : simple_simulate sem choosers spec nest_spec rng
      chunk_size chooser_row_size = .ok out) :
    eval_mnl sem choosers spec rng = .ok (triples.map (fun t => (t.1, t.2.1))) ∧
    _mode_choice_simulate sem choosers spec nest_spec rng chunk_size chooser_row_size
      = .ok (out.map (fun kc => (kc.1, spec.alts.getD kc.2 ""))) := by
  constructor
  · rw [eval_mnl, hfull]
    rfl
  · rw [_mode_choice_simulate, hsim]
    rfl

/-- The same concrete single-alternative run through the chunked driver. -/
theorem simple_simulate_concrete_run :
    simple_simulate (fun _ _ => some 1) [⟨0, fun _ => 0⟩]
      ⟨["e"], ["car"], fun _ _ => 1⟩ none (fun _ => 0) 0 0 = .ok [(0, 0)] := by
  have hmnl : _simple_simulate (fun _ _ => some 1) [⟨0, fun _ => 0⟩]
      ⟨["e"], ["car"], fun _ _ => 1⟩ none (fun _ => 0) = .ok [(0, 0)] := by
    rw [_simple_simulate, eval_mnl, eval_mnl_full_concrete_run 0 zero_lt_one]
    rfl
  rw [simple_simulate, if_pos (by simp)]
  rw [simple_simulate_loop]
  have hch : chunked_choosers [(⟨0, fun _ => 0⟩ : Chooser)]
      (simple_simulate_rpc 0 0 ([(⟨0, fun _ => 0⟩ : Chooser)]).length
        ⟨["e"], ["car"], fun _ _ => 1⟩ none)
      = [[⟨0, fun _ => 0⟩]] := by
    simp [simple_simulate_rpc, chunked_choosers]
  rw [hch, List.mapM_cons, hmnl, List.mapM_nil]
  rfl

theorem choices_delivered_without_draws_witness :
    (eval_mnl_full (fun _ _ => some 1) [⟨0, fun _ => 0⟩]
        ⟨["e"], ["car"], fun _ _ => 1⟩ (fun _ => 0) = .ok [(0, 0, 0)] ∧
      simple_simulate (fun _ _ => some 1) [⟨0, fun _ => 0⟩]
        ⟨["e"], ["car"], fun _ _ => 1⟩ none (fun _ => 0) 0 0 = .ok [(0, 0)]) ∧
    (eval_mnl (fun _ _ => some 1) [⟨0, fun _ => 0⟩]
        ⟨["e"], ["car"], fun _ _ => 1⟩ (fun _ => 0)
        = .ok (([((0 : Key), (0 : Nat), (0 : ℝ))]).map (fun t => (t.1, t.2.1))) ∧
      _mode_choice_simulate (fun _ _ => some 1) [⟨0, fun _ => 0⟩]
        ⟨["e"], ["car"], fun _ _ => 1⟩ none (fun _ => 0) 0 0
        = .ok (([((0 : Key), (0 : Nat))]).map (fun kc =>
            (kc.1, (⟨["e"], ["car"], fun _ _ => 1⟩ : Spec).alts.getD kc.2 "")))) :=
  ⟨⟨eval_mnl_full_concrete_run 0 zero_lt_one, simple_simulate_concrete_run⟩,
   choices_delivered_without_draws (fun _ _ => some 1) [⟨0, fun _ => 0⟩]
     ⟨["e"], ["car"], fun _ _ => 1⟩ none (fun _ => 0) 0 0
     [((0 : Key), (0 : Nat), (0 : ℝ))] [((0 : Key), (0 : Nat))]
     (eval_mnl_full_concrete_run 0 zero_lt_one) simple_simulate_concrete_run⟩

/-! ### Closed form of the per-chunk pipeline

The chunking-invariance claim rests on the pipeline being row-wise: on a
successfully evaluating population, every stage of `_simple_simulate` acts
independently on each row, with the random draw keyed by the row's entity
key.  The following lemmas compute the pipeline's closed form as a `mapM`
of a per-row function over the chooser rows. -/

/-- The value an expression takes on a row of a successfully evaluating
population. -/
noncomputable def valOf (sem : ExprSem) (e : ColName) (r : Chooser) : ℝ :=
  (sem e r).getD 0

theorem colEval_total (sem : ExprSem) (e : ColName) (rows : List Chooser)
    (htot : ∀ r ∈ rows, (sem e r).isSome) :
    colEval sem rows e = some (rows.map (fun r => (r.key, valOf sem e r))) := by
  induction rows with
  | nil => rfl
  | cons r rest ih =>
    obtain ⟨v, hv⟩ := Option.isSome_iff_exists.mp (htot r (by simp))
    have hrest := ih (fun r2 h2 => htot r2 (by simp [h2]))
    simp only [colEval] at hrest ⊢
    rw [List.mapM_cons, hv, hrest]
    simp [valOf, hv]

theorem eval_variables_total (sem : ExprSem) (exprs : List ColName)
    (rows : List Chooser)
    (htot : ∀ e ∈ exprs, ∀ r ∈ rows, (sem e r).isSome) :
    eval_variables sem exprs rows = .ok
      ⟨rows.map Chooser.key,
       exprs.map (fun e => (e, rows.map (fun r => (r.key, valOf sem e r))))⟩ := by
  have main : eval_variables_items sem rows exprs = .ok
      (exprs.map (fun e => (e, rows.map (fun r => (r.key, valOf sem e r))))) := by
    induction exprs with
    | nil => rfl
    | cons e rest ih =>
      have hcol := colEval_total sem e rows (htot e (by simp))
      have hrest := ih (fun e2 h2 r hr => htot e2 (by simp [h2]) r hr)
      simp [eval_variables_items, hcol, hrest, Except.map]
  simp [eval_variables, main, Except.map]

/-- Key-based lookup into a column built from the rows themselves: with
unique entity keys, the column's value at a row's key is that row's value. -/
theorem alookup_keymap {β : Type} (rows : List Chooser) (f : Chooser → β)
    (hnd : (rows.map Chooser.key).Nodup) (r : Chooser) (hr : r ∈ rows) :
    alookup r.key (rows.map (fun r2 => (r2.key, f r2))) = some (f r) := by
  induction rows with
  | nil => simp at hr
  | cons y ys ih =>
    simp only [List.map_cons, List.nodup_cons] at hnd
    rcases List.mem_cons.mp hr with rfl | hr
    · simp [alookup]
    · have hne : y.key ≠ r.key := fun he =>
        hnd.1 (he ▸ List.mem_map.mpr ⟨r, hr, rfl⟩)
      simp only [List.map_cons, alookup, if_neg hne]
      exact ih hnd.2 hr

/-- The raw utility of one row for one alternative (the closed form of the
`compute_utilities` matrix product on a successfully evaluating table). -/
noncomputable def rowUtils (sem : ExprSem) (spec : Spec) (r : Chooser) :
    ColName → ℝ :=
  fun a => (spec.exprs.map (fun e =>
    valOf sem e r * ((spec.coeff e a : ℚ) : ℝ))).sum

theorem compute_utilities_total (sem : ExprSem) (spec : Spec)
    (rows : List Chooser) (hnd : (rows.map Chooser.key).Nodup) :
    compute_utilities
      ⟨rows.map Chooser.key,
       spec.exprs.map (fun e => (e, rows.map (fun r => (r.key, valOf sem e r))))⟩
      spec
      = some (rows.map (fun r => (r.key, rowUtils sem spec r))) := by
  rw [compute_utilities]
  rw [if_pos (by simp [List.map_map, Function.comp_def])]
  rw [Option.some_inj, List.map_map]
  refine List.map_congr_left (fun r hr => ?_)
  simp only [Function.comp_def]
  refine congrArg _ (funext (fun a => ?_))
  rw [rowUtils, List.map_map]
  refine congrArg _ (List.map_congr_left (fun e _ => ?_))
  simp only [Function.comp_def]
  rw [alookup_keymap rows (fun r2 => valOf sem e r2) hnd r hr]
  rfl

theorem list_mapM_map {α β γ ε : Type} (f : α → β) (g : β → Except ε γ) :
    ∀ l : List α, (l.map f).mapM g = l.mapM (fun a => g (f a))
  | [] => rfl
  | a :: l => by
    rw [List.map_cons, List.mapM_cons, List.mapM_cons, list_mapM_map f g l]

/-- The per-row closed form of the MNL branch: the row's probabilities. -/
noncomputable def mnlRowProbs (sem : ExprSem) (spec : Spec) (r : Chooser) :
    ColName → ℝ :=
  fun a =>
    Real.exp (rowUtils sem spec r a - rowMax (spec.alts.map (rowUtils sem spec r))) /
      ((spec.alts.map (fun b => Real.exp (rowUtils sem spec r b -
        rowMax (spec.alts.map (rowUtils sem spec r))))).sum)

/-- The per-row closed form of the MNL branch of `_simple_simulate`: draw by
the row's entity key, choose by inverse CDF over the row's probabilities. -/
noncomputable def mnlRowPipe (sem : ExprSem) (spec : Spec) (rng : Key → ℝ)
    (r : Chooser) : Except SimError (Key × Nat × ℝ) :=
  match chooseIdx (rng r.key) 0 (spec.alts.map (mnlRowProbs sem spec r)) with
  | some j => .ok (r.key, j, rng r.key)
  | none => .error (.badDraw r.key)

theorem eval_mnl_full_total (sem : ExprSem) (spec : Spec) (rng : Key → ℝ)
    (rows : List Chooser) (hnd : (rows.map Chooser.key).Nodup)
    (htot : ∀ e ∈ spec.exprs, ∀ r ∈ rows, (sem e r).isSome) :
    eval_mnl_full sem rows spec rng = rows.mapM (mnlRowPipe sem spec rng) := by
  unfold eval_mnl_full
  simp only [eval_variables_total sem spec.exprs rows htot,
    compute_utilities_total sem spec rows hnd]
  rw [utils_to_probs, List.map_map, make_choices, list_mapM_map]
  rfl

/-- The per-row closed form of the flattened (base) probabilities of the NL
branch. -/
noncomputable def nlRowBase (sem : ExprSem) (spec : Spec) (nest : Nest)
    (r : Chooser) : ColName → ℝ :=
  fun n => (alookup n (rowBaseProbs (fun m =>
    (alookup m (rowNestedProbs (fun m2 =>
      (alookup m2 (compute_nested_exp_utilities_row
        (fun c => ((rowUtils sem spec r c : ℝ) : EReal)) nest)).getD 0) nest)).getD 0)
    nest)).getD 0

/-- The per-row closed form of the NL branch of `_simple_simulate`. -/
noncomputable def nlRowPipe (sem : ExprSem) (spec : Spec) (nest : Nest)
    (rng : Key → ℝ) (r : Chooser) : Except SimError (Key × Nat × ℝ) :=
  match chooseIdx (rng r.key) 0 ((leafNames nest).map (nlRowBase sem spec nest r)) with
  | some j => .ok (r.key, j, rng r.key)
  | none => .error (.badDraw r.key)

theorem eval_nl_full_total (sem : ExprSem) (spec : Spec) (nest : Nest)
    (rng : Key → ℝ) (rows : List Chooser)
    (hnd : (rows.map Chooser.key).Nodup)
    (htot : ∀ e ∈ spec.exprs, ∀ r ∈ rows, (sem e r).isSome) :
    eval_nl_full sem rows spec nest rng = rows.mapM (nlRowPipe sem spec nest rng) := by
  unfold eval_nl_full
  simp only [eval_variables_total sem spec.exprs rows htot,
    compute_utilities_total sem spec rows hnd]
  rw [compute_nested_exp_utilities, compute_nested_probabilities,
    compute_base_probabilities, List.map_map, List.map_map, List.map_map,
    eval_nl_from_base, make_choices, list_mapM_map]
  rfl

/-- The per-row closed form of `_simple_simulate` (MNL or NL by the presence
of a nest spec). -/
noncomputable def rowPipe (sem : ExprSem) (spec : Spec) (nest_spec : Option Nest)
    (rng : Key → ℝ) : Chooser → Except SimError (Key × Nat × ℝ) :=
  match nest_spec with
  | none => mnlRowPipe sem spec rng
  | some nest => nlRowPipe sem spec nest rng

theorem _simple_simulate_full_total (sem : ExprSem) (rows : List Chooser)
    (spec : Spec) (nest_spec : Option Nest) (rng : Key → ℝ)
    (hnd : (rows.map Chooser.key).Nodup)
    (htot : ∀ e ∈ spec.exprs, ∀ r ∈ rows, (sem e r).isSome) :
    _simple_simulate_full sem rows spec nest_spec rng
      = rows.mapM (rowPipe sem spec nest_spec rng) := by
  cases nest_spec with
  | none => exact eval_mnl_full_total sem spec rng rows hnd htot
  | some nest => exact eval_nl_full_total sem spec nest rng rows hnd htot

theorem _simple_simulate_eq_proj (sem : ExprSem) (rows : List Chooser)
    (spec : Spec) (nest_spec : Option Nest) (rng : Key → ℝ) :
    _simple_simulate sem rows spec nest_spec rng
      = (_simple_simulate_full sem rows spec nest_spec rng).map
        (List.map (fun t => (t.1, t.2.1))) := by
  cases nest_spec <;> rfl

/-! ### Chunk algebra -/

theorem chunked_choosers_flatten {α : Type} (rpc : Nat) (hrpc : 0 < rpc) :
    ∀ rows : List α, (chunked_choosers rows rpc).flatten = rows := by
  have H : ∀ (n : Nat) (rows : List α), rows.length ≤ n →
      (chunked_choosers rows rpc).flatten = rows := by
    intro n
    induction n with
    | zero =>
      intro rows h
      cases rows with
      | nil => simp [chunked_choosers]
      | cons x xs => simp at h
    | succ n ih =>
      intro rows h
      cases rows with
      | nil => simp [chunked_choosers]
      | cons x xs =>
        rw [chunked_choosers, if_neg (Nat.pos_iff_ne_zero.mp hrpc),
          List.flatten_cons,
          ih ((x :: xs).drop rpc) (by simp only [List.length_drop]; omega)]
        exact List.take_append_drop rpc (x :: xs)
  exact fun rows => H rows.length rows le_rfl

theorem list_mapM_congr {α β ε : Type} {f g : α → Except ε β} :
    ∀ {l : List α}, (∀ a ∈ l, f a = g a) → l.mapM f = l.mapM g
  | [], _ => rfl
  | a :: l, h => by
    rw [List.mapM_cons, List.mapM_cons, h a (by simp),
      list_mapM_congr (fun x hx => h x (by simp [hx]))]

/-- Processing the chunks one after the other and concatenating equals
processing the concatenation: the `mapM`/`flatten` exchange law that drives
chunking invariance. -/
theorem list_mapM_flatten {α β ε : Type} (f : α → Except ε β) (L : List (List α)) :
    (L.mapM (fun l : List α => l.mapM f)).map List.flatten = L.flatten.mapM f := by
  induction L with
  | nil => rfl
  | cons l L ih =>
    rw [List.flatten_cons, List.mapM_append, List.mapM_cons, ← ih]
    cases hl : l.mapM f with
    | error e => rfl
    | ok v =>
      cases hL : L.mapM (fun l2 : List α => l2.mapM f) with
      | error e2 => rfl
      | ok vs => rfl

theorem list_mapM_push_map {α β γ ε : Type} (F : α → Except ε β) (g : β → γ) :
    ∀ l : List α,
      l.mapM (fun a => (F a).map g) = (l.mapM F).map (List.map g)
  | [] => rfl
  | a :: l => by
    rw [List.mapM_cons, List.mapM_cons, list_mapM_push_map F g l]
    cases F a <;> cases hl : l.mapM F <;> rfl

/-- The chunk loop retaining the `(choices, rands)` stage, in closed form:
with unique entity keys and totally evaluating expressions, the chunked run
is the row-wise `mapM` over the whole population, for every positive
rows-per-chunk. -/
theorem simple_simulate_full_loop_closed (sem : ExprSem) (choosers : List Chooser)
    (spec : Spec) (nest_spec : Option Nest) (rng : Key → ℝ) (rpc : Nat)
    (hrpc : 0 < rpc) (hnd : (choosers.map Chooser.key).Nodup)
    (htot : ∀ e ∈ spec.exprs, ∀ r ∈ choosers, (sem e r).isSome) :
    simple_simulate_full_loop sem choosers spec nest_spec rng rpc
      = choosers.mapM (rowPipe sem spec nest_spec rng) := by
  rw [simple_simulate_full_loop]
  have hch : ∀ ch ∈ chunked_choosers choosers rpc,
      _simple_simulate_full sem ch spec nest_spec rng
        = ch.mapM (rowPipe sem spec nest_spec rng) := by
    intro ch hmem
    have hsub : ch.Sublist choosers := by
      have h1 := List.sublist_flatten_of_mem hmem
      rwa [chunked_choosers_flatten rpc hrpc] at h1
    exact _simple_simulate_full_total sem ch spec nest_spec rng
      ((hsub.map Chooser.key).nodup hnd)
      (fun e he r hr => htot e he r (hsub.subset hr))
  rw [list_mapM_congr hch, list_mapM_flatten, chunked_choosers_flatten rpc hrpc]

theorem simple_simulate_loop_eq_proj (sem : ExprSem) (choosers : List Chooser)
    (spec : Spec) (nest_spec : Option Nest) (rng : Key → ℝ) (rpc : Nat) :
    simple_simulate_loop sem choosers spec nest_spec rng rpc
      = (simple_simulate_full_loop sem choosers spec nest_spec rng rpc).map
        (List.map (fun t => (t.1, t.2.1))) := by
  rw [simple_simulate_loop, simple_simulate_full_loop]
  have h1 : (chunked_choosers choosers rpc).mapM
      (fun ch => _simple_simulate sem ch spec nest_spec rng)
      = ((chunked_choosers choosers rpc).mapM
        (fun ch => _simple_simulate_full sem ch spec nest_spec rng)).map
        (List.map (List.map (fun t => (t.1, t.2.1)))) := by
    rw [← list_mapM_push_map]
    exact list_mapM_congr (fun ch _ => _simple_simulate_eq_proj sem ch spec nest_spec rng)
  rw [h1]
  cases (chunked_choosers choosers rpc).mapM
      (fun ch => _simple_simulate_full sem ch spec nest_spec rng) with
  | error e => rfl
  | ok v => simp [Except.map, List.map_flatten]

theorem rowPipe_ok_key (sem : ExprSem) (spec : Spec) (nest_spec : Option Nest)
    (rng : Key → ℝ) (r : Chooser) (v : Key × Nat × ℝ)
    (h : rowPipe sem spec nest_spec rng r = .ok v) : v.1 = r.key := by
  cases nest_spec with
  | none =>
    simp only [rowPipe, mnlRowPipe] at h
    cases hc : chooseIdx (rng r.key) 0 (spec.alts.map (mnlRowProbs sem spec r)) with
    | some j => rw [hc] at h; cases h; rfl
    | none => rw [hc] at h; cases h
  | some nest =>
    simp only [rowPipe, nlRowPipe] at h
    cases hc : chooseIdx (rng r.key) 0
        ((leafNames nest).map (nlRowBase sem spec nest r)) with
    | some j => rw [hc] at h; cases h; rfl
    | none => rw [hc] at h; cases h

theorem rowPipe_mapM_keys (sem : ExprSem) (spec : Spec) (nest_spec : Option Nest)
    (rng : Key → ℝ) :
    ∀ (rows : List Chooser) (res : List (Key × Nat × ℝ)),
      rows.mapM (rowPipe sem spec nest_spec rng) = .ok res →
      res.map (fun t => t.1) = rows.map Chooser.key
  | [], res, h => by
    simp only [List.mapM_nil] at h
    cases h
    rfl
  | r :: rest, res, h => by
    rw [List.mapM_cons] at h
    cases hr : rowPipe sem spec nest_spec rng r with
    | error e => rw [hr] at h; cases h
    | ok v =>
      rw [hr] at h
      cases hrest : rest.mapM (rowPipe sem spec nest_spec rng) with
      | error e => rw [hrest] at h; cases h
      | ok vs =>
        rw [hrest] at h
        cases h
        simp only [List.map_cons]
        rw [rowPipe_ok_key sem spec nest_spec rng r v hr,
          rowPipe_mapM_keys sem spec nest_spec rng rest vs hrest]

/-- C1: for every chooser population (with the entity-table invariant of
unique keys), spec, and optional nest spec, on a successfully evaluating
population (`htot`; with row-dependent expression failures, chunked and
unchunked runs can abort with different offending expressions) running the
`simple_simulate` chunk loop with *any* positive rows-per-chunk — including
1 — produces the same result as processing the whole population as one chunk
(`rpc = len(choosers)`, the `chunk_size = 0` path of `simple_simulate`):
identical choices, and identical draw values at the retained
`(choices, rands)` stage, for every entity (the draw is keyed by entity
identity); and the concatenated output preserves the original row order of
the input table (the output keys are the input keys in order). -/
theorem simple_simulate_chunking_invariance (sem : ExprSem)
    (choosers : List Chooser) (spec : Spec) (nest_spec : Option Nest)
    (rng : Key → ℝ) (rpc : Nat) (hrpc : 0 < rpc)
    (hnd : (choosers.map Chooser.key).Nodup)
    (htot : ∀ e ∈ spec.exprs, ∀ r ∈ choosers, (sem e r).isSome) :
    (simple_simulate_loop sem choosers spec nest_spec rng rpc
      = simple_simulate_loop sem choosers spec nest_spec rng choosers.length) ∧
    (simple_simulate_full_loop sem choosers spec nest_spec rng rpc
      = simple_simulate_full_loop sem choosers spec nest_spec rng choosers.length) ∧
    (choosers ≠ [] → ∀ chooser_row_size,
      simple_simulate sem choosers spec nest_spec rng 0 chooser_row_size
        = simple_simulate_loop sem choosers spec nest_spec rng rpc) ∧
    (∀ out, simple_simulate_loop sem choosers spec nest_spec rng rpc = .ok out →
      out.map Prod.fst = choosers.map Chooser.key) := by
  by_cases hne : choosers = []
  · subst hne
    refine ⟨?_, ?_, fun h => absurd rfl h, ?_⟩
    · simp [simple_simulate_loop, chunked_choosers]
    · simp [simple_simulate_full_loop, chunked_choosers]
    · intro out hout
      simp only [simple_simulate_loop, chunked_choosers, List.mapM_nil,
        Except.map] at hout
      cases hout
      rfl
  · have hlen : 0 < choosers.length := List.length_pos.mpr hne
    have hfull1 := simple_simulate_full_loop_closed sem choosers spec nest_spec
      rng rpc hrpc hnd htot
    have hfull2 := simple_simulate_full_loop_closed sem choosers spec nest_spec
      rng choosers.length hlen hnd htot
    have hfull := hfull1.trans hfull2.symm
    have hloop : simple_simulate_loop sem choosers spec nest_spec rng rpc
        = simple_simulate_loop sem choosers spec nest_spec rng choosers.length := by
      rw [simple_simulate_loop_eq_proj, simple_simulate_loop_eq_proj, hfull]
    refine ⟨hloop, hfull, ?_, ?_⟩
    · intro _ chooser_row_size
      rw [simple_simulate, if_pos hlen]
      have hrpc0 : simple_simulate_rpc 0 chooser_row_size choosers.length
          spec nest_spec = choosers.length := by
        simp [simple_simulate_rpc]
      rw [hrpc0]
      exact hloop.symm
    · intro out hout
      rw [simple_simulate_loop_eq_proj, hfull1] at hout
      cases hmm : choosers.mapM (rowPipe sem spec nest_spec rng) with
      | error e => rw [hmm] at hout; cases hout
      | ok triples =>
        rw [hmm] at hout
        simp only [Except.map] at hout
        cases hout
        rw [List.map_map]
        have hkeys := rowPipe_mapM_keys sem spec nest_spec rng choosers triples hmm
        simpa [Function.comp_def] using hkeys

theorem simple_simulate_chunking_invariance_witness :
    ((0 : Nat) < 1 ∧
      (([⟨0, fun _ => 0⟩, ⟨1, fun _ => 0⟩] : List Chooser).map Chooser.key).Nodup ∧
      (∀ e ∈ (⟨["e"], ["car"], fun _ _ => 1⟩ : Spec).exprs,
        ∀ r ∈ ([⟨0, fun _ => 0⟩, ⟨1, fun _ => 0⟩] : List Chooser),
          ((fun _ _ => some (1 : ℝ)) e r).isSome)) ∧
    ((simple_simulate_loop (fun _ _ => some 1)
        [⟨0, fun _ => 0⟩, ⟨1, fun _ => 0⟩] ⟨["e"], ["car"], fun _ _ => 1⟩
        none (fun _ => 0) 1
      = simple_simulate_loop (fun _ _ => some 1)
        [⟨0, fun _ => 0⟩, ⟨1, fun _ => 0⟩] ⟨["e"], ["car"], fun _ _ => 1⟩
        none (fun _ => 0)
        ([⟨0, fun _ => 0⟩, ⟨1, fun _ => 0⟩] : List Chooser).length) ∧
    (simple_simulate_full_loop (fun _ _ => some 1)
        [⟨0, fun _ => 0⟩, ⟨1, fun _ => 0⟩] ⟨["e"], ["car"], fun _ _ => 1⟩
        none (fun _ => 0) 1
      = simple_simulate_full_loop (fun _ _ => some 1)
        [⟨0, fun _ => 0⟩, ⟨1, fun _ => 0⟩] ⟨["e"], ["car"], fun _ _ => 1⟩
        none (fun _ => 0)
        ([⟨0, fun _ => 0⟩, ⟨1, fun _ => 0⟩] : List Chooser).length) ∧
    (([⟨0, fun _ => 0⟩, ⟨1, fun _ => 0⟩] : List Chooser) ≠ [] →
      ∀ chooser_row_size,
      simple_simulate (fun _ _ => some 1)
          [⟨0, fun _ => 0⟩, ⟨1, fun _ => 0⟩] ⟨["e"], ["car"], fun _ _ => 1⟩
          none (fun _ => 0) 0 chooser_row_size
        = simple_simulate_loop (fun _ _ => some 1)
          [⟨0, fun _ => 0⟩, ⟨1, fun _ => 0⟩] ⟨["e"], ["car"], fun _ _ => 1⟩
          none (fun _ => 0) 1) ∧
    (∀ out, simple_simulate_loop (fun _ _ => some 1)
          [⟨0, fun _ => 0⟩, ⟨1, fun _ => 0⟩] ⟨["e"], ["car"], fun _ _ => 1⟩
          none (fun _ => 0) 1 = .ok out →
      out.map Prod.fst
        = ([⟨0, fun _ => 0⟩, ⟨1, fun _ => 0⟩] : List Chooser).map Chooser.key)) :=
  ⟨⟨by decide, by decide, by simp⟩,
   simple_simulate_chunking_invariance (fun _ _ => some 1)
     [⟨0, fun _ => 0⟩, ⟨1, fun _ => 0⟩] ⟨["e"], ["car"], fun _ _ => 1⟩
     none (fun _ => 0) 1 (by decide) (by decide) (by simp)⟩

end ActivitySim
